import Mathlib

/-!
# Go-Set: a finite set over a Go map, and its power set

A verification development for `Set.go`.  The file embeds the Go program
shallowly:

* a Go `map[setMember]bool` is an association list of key/value pairs; the
  order of the list is the order in which a `range` loop happens to visit the
  map, which Go leaves unspecified, so every statement about reachable sets is
  made for every order of the list;
* `setMember` is `interface{}` in the source; here it is any type of values
  with the comparison `==` of Go (`goEq`), which holds between a value and
  itself except for the values that are not equal to themselves, such as the
  float NaN; a map finds a key by `==`, so such a key is stored anew by every
  assignment and is never found by a lookup or a `delete`.  Values of a
  dynamic type that cannot be compared, for which the map operations panic,
  are not values of `setMember`;
* `int` is the 64-bit two's complement integer of the usual Go targets;
  arithmetic on it wraps (`wrapInt`);
* `fmt.Sprintf` with the verb `%b` and `fmt.Sprint` of a slice are modelled from
  the documented behaviour of package `fmt`; the rendering `fmt.Sprint` of one
  element is a parameter;
* a Go string is the list of its bytes; a `panic` is an error value carrying
  the message;
* `Append` and `Remove` change the map in place; here they return the new
  state of the set.  Where two variables may hold the same map, the maps are
  kept in a `Store` by address.
-/

set_option linter.unusedSectionVars false

namespace GoSet

/-! ## The comparison of keys -/

/-- The values a `setMember` can hold, with what Go's `==` says of a value and
itself: `true`, except for a value that is not equal to itself (the float NaN,
a struct or array holding one). -/
class GoValue (κ : Type) where
  selfEqual : κ → Bool

/-- The comparison `a == b` of two interface values, by which a map finds a
key: the two are the same value and that value is equal to itself. -/
def goEq {κ : Type} [DecidableEq κ] [GoValue κ] (a b : κ) : Bool :=
  decide (a = b) && GoValue.selfEqual a

/-! ## The Go map -/

/-- A Go `map[κ]bool`: its entries, in the order a `range` loop visits them. -/
abbrev GoMap (κ : Type) := List (κ × Bool)

namespace GoMap

variable {κ : Type} [DecidableEq κ] [GoValue κ]

/-- The expression `make(map[κ]bool)`. -/
def make : GoMap κ := []

/-- The expression `len(m)`. -/
def len (m : GoMap κ) : Nat := m.length

/-- The expression `m[k]`: the value stored under a key `==` to `k`, or the zero
value `false` when there is none. -/
def index : GoMap κ → κ → Bool
  | [], _ => false
  | (k', v) :: rest, k => if goEq k' k then v else index rest k

/-- The statement `m[k] = v`: overwrite the entry of a key `==` to `k`, or add an
entry when there is none. -/
def assign : GoMap κ → κ → Bool → GoMap κ
  | [], k, v => [(k, v)]
  | (k', v') :: rest, k, v =>
    if goEq k' k then (k', v) :: rest else (k', v') :: assign rest k v

/-- The statement `delete(m, k)`: remove the entry of a key `==` to `k`, if there
is one. -/
def delete : GoMap κ → κ → GoMap κ
  | [], _ => []
  | (k', v') :: rest, k => if goEq k' k then rest else (k', v') :: delete rest k

/-- The keys a `for k := range m` loop visits, in visiting order. -/
def keys (m : GoMap κ) : List κ := m.map Prod.fst

/-- The shape of every map the package builds: no key that is equal to itself
is stored twice (true of any Go map) and no key is stored with `false`. -/
structure WF (m : GoMap κ) : Prop where
  nodup : (m.keys.filter GoValue.selfEqual).Nodup
  allTrue : ∀ e ∈ m, e.2 = true

/-- Every key of the map is equal to itself: the map holds no NaN. -/
def Regular (m : GoMap κ) : Prop := ∀ k ∈ m.keys, GoValue.selfEqual k = true

end GoMap

/-! ## Machine integers and `pow` -/

/-- The value a 64-bit two's complement `int` holds after an arithmetic
operation whose mathematical result is `x`. -/
def wrapInt (x : Int) : Int := (x + 2 ^ 63) % 2 ^ 64 - 2 ^ 63

/-- The loop of `pow`: `for exp > 0 { if exp&1 != 0 { p *= a }; exp >>= 1; a *= a }`,
run for at most `fuel` rounds. -/
def powLoop : Nat → Int → Int → Int → Int
  | 0, p, _, _ => p
  | fuel + 1, p, a, exp =>
    if exp > 0 then
      let p := if exp % 2 ≠ 0 then wrapInt (p * a) else p
      powLoop fuel p (wrapInt (a * a)) (exp / 2)
    else p

/-- The function `pow(a, exp int) int`.  The loop halves `exp` each round, so
`exp` rounds are more than enough. -/
def pow (a exp : Int) : Int := powLoop exp.toNat 1 a exp

/-! ## Package `fmt` -/

/-- The digit `'0'` or `'1'` of a bit. -/
def binDigit (u : Nat) : Char := if u % 2 = 1 then '1' else '0'

/-- Modelled from the documentation of package `fmt`: the digits the verb `%b`
writes for a non-negative integer, most significant first, produced from the
least significant end (`for u >= 2 { buf[i] = '0' + u&1; u >>= 1 }; buf[i] = u`). -/
def fmtBinaryLoop : Nat → Nat → List Char → List Char
  | 0, u, buf => binDigit u :: buf
  | fuel + 1, u, buf =>
    if u ≥ 2 then fmtBinaryLoop fuel (u / 2) (binDigit u :: buf) else binDigit u :: buf

/-- The digits of `fmt.Sprintf("%b", i)`. -/
def fmtBinary (i : Nat) : List Char := fmtBinaryLoop i i []

/-- The string `fmt.Sprintf("%0" + strconv.Itoa(n) + "b", i)` for `i ≥ 0`: the
binary digits of `i`, padded with zeros on the left to width `n`.  For `n = 0`
the format is `"%00b"`, two zero flags and no width, so nothing is padded. -/
def Sprintf_binaryLen (n i : Nat) : List Char :=
  let digits := fmtBinary i
  List.replicate (n - digits.length) '0' ++ digits

/-! ## The set -/

/-- The struct `Set`: `type Set struct { mem map[setMember]bool }`. -/
structure Set (setMember : Type) where
  mem : GoMap setMember
deriving DecidableEq

variable {setMember : Type} [DecidableEq setMember] [GoValue setMember]

/-- The constructor `NewSet`. -/
def NewSet : Set setMember := ⟨GoMap.make⟩

/-- The method `Append`: `s.mem[newMem] = true`.  The map is shared by every copy
of the struct, so the result is the state of `s` after the call. -/
def Set.Append (s : Set setMember) (newMem : setMember) : Set setMember :=
  ⟨s.mem.assign newMem true⟩

/-- The method `Remove`: `delete(s.mem, removeMem)`. -/
def Set.Remove (s : Set setMember) (removeMem : setMember) : Set setMember :=
  ⟨s.mem.delete removeMem⟩

/-- The function `Equals`: `false` when the lengths differ, `false` at the first
key of `oneSet` whose lookup in `otherSet` is `false`, `true` otherwise. -/
def Equals (oneSet otherSet : Set setMember) : Bool :=
  if oneSet.mem.len ≠ otherSet.mem.len then false
  else oneSet.mem.keys.all (fun k => !(otherSet.mem.index k == false))

/-- The method `Union`. -/
def Set.Union (s otherSet : Set setMember) : Set setMember :=
  let unionSet : Set setMember := NewSet
  let unionSet := s.mem.keys.foldl (fun u k => ⟨u.mem.assign k true⟩) unionSet
  let unionSet := otherSet.mem.keys.foldl (fun u k => ⟨u.mem.assign k true⟩) unionSet
  unionSet

/-- The method `Intersection`. -/
def Set.Intersection (s otherSet : Set setMember) : Set setMember :=
  let interSet : Set setMember := NewSet
  s.mem.keys.foldl
    (fun r k => if otherSet.mem.index k == true then ⟨r.mem.assign k true⟩ else r) interSet

/-- The method `RelCompl`. -/
def Set.RelCompl (s universeSet : Set setMember) : Set setMember :=
  let relSet : Set setMember := NewSet
  s.mem.keys.foldl
    (fun r k => if universeSet.mem.index k == false then ⟨r.mem.assign k true⟩ else r) relSet

/-- The function `subsets`: first the index strings of `0 .. pow(2, n) - 1`, then
for each of them the elements of `mySlice` at the positions of its digits `'1'`.
Both loops run while `i < pow(2, len(mySlice))`, so they run `(pow 2 n).toNat`
times; every index read is in range. -/
def subsets (mySlice : List setMember) : List (List setMember) :=
  let bound := (pow 2 mySlice.length).toNat
  let indexSlice : List (List Char) :=
    (List.range bound).foldl
      (fun acc i => acc ++ [Sprintf_binaryLen mySlice.length i]) []
  (List.range bound).foldl
    (fun subSetSlice i =>
      let subsets : List setMember :=
        (List.range mySlice.length).foldl
          (fun subsets k =>
            if (indexSlice.getD i []).getD k ' ' = '1' then
              match mySlice[k]? with
              | some x => subsets ++ [x]
              | none => subsets
            else subsets) []
      subSetSlice ++ [subsets]) []

/-- The inner loop of `PowerSet`: the set holding the elements of one subslice. -/
def newSubSet (subSlice : List setMember) : Set setMember :=
  (List.range subSlice.length).foldl
    (fun ns k =>
      match subSlice[k]? with
      | some x => ⟨ns.mem.assign x true⟩
      | none => ns) NewSet

/-- The function `PowerSet`. -/
def PowerSet (mySet : Set setMember) : List (Set setMember) :=
  let mySlice : List setMember := mySet.mem.keys.foldl (fun sl k => sl ++ [k]) []
  let mySubSlices := subsets mySlice
  (List.range mySubSlices.length).foldl
    (fun powSet i => powSet ++ [newSubSet (mySubSlices.getD i [])]) []

/-- The set `allElemsInPowSet` that `testPowerSet` collects: every key of every
entry of `subSetSlice`, appended to a new set. -/
def allElemsInPowSet (subSetSlice : List (Set setMember)) : Set setMember :=
  (List.range subSetSlice.length).foldl
    (fun all i => ((subSetSlice.getD i NewSet).mem.keys).foldl (fun all k => all.Append k) all)
    NewSet

/-- The first loop of `subsets` on its own: the slice `indexSlice` of the index
strings. -/
def indexSlice (mySlice : List setMember) : List (List Char) :=
  (List.range (pow 2 mySlice.length).toNat).foldl
    (fun acc i => acc ++ [Sprintf_binaryLen mySlice.length i]) []

/-- The function `testPowerSet`.  A `panic` is the error that carries its
message; a normal return is `ok`. -/
def testPowerSet (subSetSlice : List (Set setMember)) (theSet : Set setMember) :
    Except String Unit :=
  let collected : Set setMember := NewSet
  if (subSetSlice.length : Int) ≠ pow 2 theSet.mem.len then
    Except.error "Error in number of elements in PowerSet"
  else
    match (List.range subSetSlice.length).foldlM
        (fun (collected : Set setMember) i =>
          (subSetSlice.getD i NewSet).mem.keys.foldlM
            (fun (collected : Set setMember) k =>
              let collected := collected.Append k
              if theSet.mem.index k == false then
                (Except.error "Error in allowed set members in PowerSet" :
                  Except String (Set setMember))
              else Except.ok collected) collected) collected with
    | Except.error e => Except.error e
    | Except.ok collected =>
      collected.mem.keys.foldlM
        (fun (_ : Unit) i =>
          if theSet.mem.index i == false then
            (Except.error "Error: elements missing in PowerSet" : Except String Unit)
          else Except.ok ()) ()

/-! ## Strings and `SetString` -/

/-- A Go string: the sequence of its bytes. -/
abbrev GoString := List Nat

/-- The conversion `string(b)` of a byte `b`: the UTF-8 encoding of the code point
`b`, one byte below 128 and two bytes from 128 on. -/
def stringOfByte (b : Nat) : GoString :=
  if b < 128 then [b] else [192 + b / 64, 128 + b % 64]

/-- Modelled from the documentation of package `fmt`: `fmt.Sprint` of a slice of
interface values, an opening bracket, the renderings of the elements separated
by one space, a closing bracket.  The rendering `Sprint` of one element is a
parameter. -/
def SprintSlice (Sprint : setMember → GoString) (xs : List setMember) : GoString :=
  [91] ++ List.intercalate [32] (xs.map Sprint) ++ [93]

/-- The method `SetString`. -/
def Set.SetString (Sprint : setMember → GoString) (s : Set setMember) : GoString :=
  let mySetSlice : List setMember := s.mem.keys.foldl (fun sl i => sl ++ [i]) []
  SprintSlice Sprint mySetSlice

/-- The value of `counter` at the end of the loops of `testSetString`: the number
of pairs of an element `i` and a position `k` with
`fmt.Sprint(i) == string(theSetString[k])`. -/
def testSetStringCounter (Sprint : setMember → GoString) (theSetString : GoString)
    (theSet : Set setMember) : Nat :=
  theSet.mem.keys.foldl
    (fun counter i =>
      (List.range theSetString.length).foldl
        (fun counter k =>
          if Sprint i = stringOfByte (theSetString.getD k 0) then counter + 1 else counter)
        counter) 0

/-- The function `testSetString`. -/
def testSetString (Sprint : setMember → GoString) (theSetString : GoString)
    (theSet : Set setMember) : Except String Unit :=
  if testSetStringCounter Sprint theSetString theSet ≠ theSet.mem.len then
    Except.error "Error in SetString: wrong number of elements"
  else Except.ok ()

/-- Membership of `x` in `s`, as the source tests it: the lookup `s.mem[x]`. -/
def Set.member (s : Set setMember) (x : setMember) : Bool := s.mem.index x

/-- The sets a client of the package can hold: built from `NewSet` by the
public operations.  A Go map has no iteration order of its own, so a set whose
map has the same entries in another order is the same set. -/
inductive Built : Set setMember → Prop
  | newSet : Built NewSet
  | append {s : Set setMember} (x : setMember) : Built s → Built (s.Append x)
  | remove {s : Set setMember} (x : setMember) : Built s → Built (s.Remove x)
  | union {a b : Set setMember} : Built a → Built b → Built (a.Union b)
  | intersection {a b : Set setMember} : Built a → Built b → Built (a.Intersection b)
  | relCompl {a b : Set setMember} : Built a → Built b → Built (a.RelCompl b)
  | powerSet {s t : Set setMember} : Built s → t ∈ PowerSet s → Built t
  | reorder {s t : Set setMember} : Built s → s.mem.Perm t.mem → Built t

/-- The dynamic values the self-test stores in its sets: Go ints and strings. -/
inductive Value where
  | int (n : Int)
  | str (s : String)
deriving DecidableEq

/-- Every int and every string is equal to itself. -/
instance : GoValue Value where
  selfEqual := fun _ => true

/-- Ints, strings and the float `math.NaN()`, which is not equal to itself. -/
inductive Dynamic where
  | int (n : Int)
  | str (s : String)
  | nan
deriving DecidableEq

/-- The comparison `x == x` is false only at NaN. -/
instance : GoValue Dynamic where
  selfEqual := fun x => match x with
    | Dynamic.nan => false
    | _ => true

/-- The set obtained from `NewSet()` by appending the elements of `xs` in order. -/
def ofSlice (xs : List setMember) : Set setMember := xs.foldl Set.Append NewSet


/-! ## The fixtures of the self-test -/

/-- The set `theSet` of `main` once `1, 2, 3, "a", "b"` are appended. -/
def theSet : Set Value :=
  ofSlice [Value.int 1, Value.int 2, Value.int 3, Value.str "a", Value.str "b"]

/-- The set `theSet` of `main` after `theSet.Append("d")`. -/
def theSetD : Set Value := theSet.Append (Value.str "d")

/-- The set `theOtherSet` of `main` at the end: `1, 2, 3, "a", "b", "c"` and then
`0 .. 11` appended. -/
def theOtherSet : Set Value :=
  ofSlice ([Value.int 1, Value.int 2, Value.int 3, Value.str "a", Value.str "b", Value.str "c"]
    ++ (List.range 12).map (fun i : Nat => Value.int i))

/-- The set `oneElementSet` of `main`. -/
def oneElementSet : Set Value := (NewSet : Set Value).Append (Value.str "d")

/-- The set `n` of `n := NewSet(); n.Append(math.NaN())`. -/
def nanSet : Set Dynamic := (NewSet : Set Dynamic).Append Dynamic.nan

/-! ## Variables that share a map -/

/-- The maps of a program state, by address.  A variable of type `Set` holds the
address of its map, and `s := t` copies the address: the two variables then
name one map. -/
structure Store (setMember : Type) where
  maps : Nat → Set setMember

/-- The call `t.Append(x)` on the variable holding the address `t`: the map at
that address changes, for every variable that holds the address. -/
def Store.Append (σ : Store setMember) (t : Nat) (x : setMember) : Store setMember :=
  ⟨Function.update σ.maps t ((σ.maps t).Append x)⟩

/-- The call `Equals(s, t)` on the variables holding the addresses `s` and `t`. -/
def Store.Equals (σ : Store setMember) (s t : Nat) : Bool :=
  GoSet.Equals (σ.maps s) (σ.maps t)

/-- A state in which every address holds the map of `theSet`. -/
def theStore : Store Value := ⟨fun _ => theSet⟩

/-- A set of 63 elements: `0, 1, .., 62` appended to `NewSet()`. -/
def sixtyThree : Set Value := ofSlice ((List.range 63).map (fun i : Nat => Value.int i))

/-- A set of two elements, `1` and `"a"`. -/
def twoElementSet : Set Value := ofSlice [Value.int 1, Value.str "a"]

/-- The bytes of the UTF-8 encoding of a character. -/
def utf8Bytes (c : Char) : GoString :=
  let n := c.toNat
  if n < 128 then [n]
  else if n < 2048 then [192 + n / 64, 128 + n % 64]
  else if n < 65536 then [224 + n / 4096, 128 + n / 64 % 64, 128 + n % 64]
  else [240 + n / 262144, 128 + n / 4096 % 64, 128 + n / 64 % 64, 128 + n % 64]

/-- Modelled from the documentation of package `fmt`: `fmt.Sprint` of an int, its
decimal digits after a minus sign when negative, and of a string, the string
itself. -/
def SprintValue : Value → GoString
  | Value.int n => (if n < 0 then [45] else []) ++ (Nat.toDigits 10 n.natAbs).map Char.toNat
  | Value.str s => s.data.flatMap utf8Bytes

/-- The set `{10}`. -/
def tenSet : Set Value := ofSlice [Value.int 10]

/-- The value a string of binary digits denotes. -/
def binaryValue (digits : List Char) : Nat :=
  digits.foldl (fun v c => 2 * v + (if c = '1' then 1 else 0)) 0

/-- In the words of the specification: the subsequence of `xs` of those `xs[k]`,
in order, for which digit `k` of the `n`-digit binary representation of `i`,
the bit of weight `2 ^ (n - 1 - k)`, is 1. -/
def subsequenceOfIndex {α : Type} (xs : List α) (i : Nat) : List α :=
  (List.range xs.length).filterMap
    (fun k => if i.testBit (xs.length - 1 - k) then xs[k]? else none)

/-! ## Auxiliary descriptions of the index strings -/

/-- The `n` low binary digits of `i`, most significant first. -/
def bitString : Nat → Nat → List Char
  | 0, _ => []
  | n + 1, i => bitString n (i / 2) ++ [binDigit i]

/-- The elements of `xs` at the positions where `digits` holds a `'1'`. -/
def pick {α : Type} : List α → List Char → List α
  | [], _ => []
  | _ :: _, [] => []
  | x :: xs, c :: cs => if c = '1' then x :: pick xs cs else pick xs cs

/-! ## The Go map: keys, lookups and the shape of a reachable map -/

namespace GoMap

variable {κ : Type} [DecidableEq κ] [GoValue κ]

theorem goEq_eq_true_iff (a b : κ) : goEq a b = true ↔ a = b ∧ GoValue.selfEqual a = true := by
  simp [goEq]

theorem goEq_self {a : κ} (h : GoValue.selfEqual a = true) : goEq a a = true :=
  (goEq_eq_true_iff a a).2 ⟨rfl, h⟩

theorem goEq_of_not_selfEqual (a : κ) {b : κ} (h : GoValue.selfEqual b = false) :
    goEq a b = false := by
  rw [← Bool.not_eq_true, goEq_eq_true_iff]
  rintro ⟨rfl, ha⟩
  rw [h] at ha
  cases ha

theorem goEq_of_ne {a b : κ} (h : a ≠ b) : goEq a b = false := by
  rw [← Bool.not_eq_true, goEq_eq_true_iff]
  exact fun hab => h hab.1

theorem wf_make : (make : GoMap κ).WF := ⟨List.nodup_nil, by simp [make]⟩

theorem keys_cons (e : κ × Bool) (m : GoMap κ) : keys (e :: m) = e.1 :: keys m := rfl

/-- The keys after `m[k] = v`: unchanged when a key `==` to `k` is stored, with `k`
added after them otherwise. -/
theorem keys_assign (m : GoMap κ) (k : κ) (v : Bool) :
    (m.assign k v).keys =
      if GoValue.selfEqual k = true ∧ k ∈ m.keys then m.keys else m.keys ++ [k] := by
  induction m with
  | nil => simp [assign, keys]
  | cons e m ih =>
    obtain ⟨k', v'⟩ := e
    by_cases h : goEq k' k = true
    · obtain ⟨rfl, hs⟩ := (goEq_eq_true_iff k' k).1 h
      simp [assign, h, keys, hs]
    · have hne : ¬ (k' = k ∧ GoValue.selfEqual k' = true) := fun hh =>
        h ((goEq_eq_true_iff k' k).2 hh)
      simp only [assign, if_neg h, keys_cons, ih, List.mem_cons]
      by_cases hin : GoValue.selfEqual k = true ∧ k ∈ keys m
      · rw [if_pos hin, if_pos ⟨hin.1, Or.inr hin.2⟩]
      · rw [if_neg hin, if_neg, List.cons_append]
        rintro ⟨hs, rfl | hm⟩
        · exact hne ⟨rfl, hs⟩
        · exact hin ⟨hs, hm⟩

theorem mem_keys_assign (m : GoMap κ) (k : κ) (v : Bool) (x : κ) :
    x ∈ (m.assign k v).keys ↔ x = k ∨ x ∈ m.keys := by
  rw [keys_assign]
  split_ifs with h
  · exact ⟨Or.inr, fun hx => hx.elim (fun e => e ▸ h.2) id⟩
  · rw [List.mem_append, List.mem_singleton]
    exact Or.comm

theorem nodup_keys_assign {m : GoMap κ} (k : κ) (v : Bool)
    (h : (m.keys.filter GoValue.selfEqual).Nodup) :
    ((m.assign k v).keys.filter GoValue.selfEqual).Nodup := by
  rw [keys_assign]
  split_ifs with hin
  · exact h
  · rw [List.filter_append]
    by_cases hs : GoValue.selfEqual k = true
    · rw [List.filter_cons_of_pos hs, List.filter_nil]
      refine List.Nodup.append h (List.nodup_singleton k) ?_
      intro x hx hx'
      rw [List.mem_singleton] at hx'
      subst hx'
      exact hin ⟨hs, (List.mem_filter.1 hx).1⟩
    · rw [List.filter_cons_of_neg hs, List.filter_nil, List.append_nil]
      exact h

theorem allTrue_assign {m : GoMap κ} (k : κ) (h : ∀ e ∈ m, e.2 = true) :
    ∀ e ∈ m.assign k true, e.2 = true := by
  induction m with
  | nil => simp [assign]
  | cons e m ih =>
    obtain ⟨k', v'⟩ := e
    by_cases hk : goEq k' k = true
    · intro e he
      simp only [assign, if_pos hk, List.mem_cons] at he
      rcases he with rfl | he
      · rfl
      · exact h e (List.mem_cons_of_mem _ he)
    · intro e he
      simp only [assign, if_neg hk, List.mem_cons] at he
      rcases he with rfl | he
      · exact h _ (List.mem_cons_self _ _)
      · exact ih (fun e he => h e (List.mem_cons_of_mem _ he)) e he

theorem WF.assign {m : GoMap κ} (h : m.WF) (k : κ) : (m.assign k true).WF :=
  ⟨nodup_keys_assign k true h.nodup, allTrue_assign k h.allTrue⟩

/-- A key that is not equal to itself is not found by `delete`. -/
theorem delete_of_not_selfEqual (m : GoMap κ) {k : κ} (h : GoValue.selfEqual k = false) :
    m.delete k = m := by
  induction m with
  | nil => rfl
  | cons e m ih =>
    obtain ⟨k', v'⟩ := e
    simp [delete, goEq_of_not_selfEqual k' h, ih]

theorem keys_delete (m : GoMap κ) {k : κ} (h : GoValue.selfEqual k = true) :
    (m.delete k).keys = m.keys.erase k := by
  induction m with
  | nil => simp [delete, keys]
  | cons e m ih =>
    obtain ⟨k', v'⟩ := e
    by_cases hk : k' = k
    · subst hk
      simp [delete, keys, goEq_self h]
    · simp only [delete, goEq_of_ne hk, Bool.false_eq_true, if_false, keys_cons, ih]
      rw [List.erase_cons_tail]
      simpa using hk

theorem delete_sublist (m : GoMap κ) (k : κ) : (m.delete k).Sublist m := by
  induction m with
  | nil => simp [delete]
  | cons e m ih =>
    obtain ⟨k', v'⟩ := e
    by_cases hk : goEq k' k = true
    · simp [delete, hk]
    · simp only [delete, if_neg hk]
      exact ih.cons₂ _

theorem WF.delete {m : GoMap κ} (h : m.WF) (k : κ) : (m.delete k).WF :=
  ⟨h.nodup.sublist (((delete_sublist m k).map Prod.fst).filter _),
   fun e he => h.allTrue e ((delete_sublist m k).subset he)⟩

theorem WF.perm {m m' : GoMap κ} (h : m.WF) (p : m.Perm m') : m'.WF :=
  ⟨((p.map Prod.fst).filter _).nodup_iff.1 h.nodup, fun e he => h.allTrue e (p.mem_iff.2 he)⟩

/-- In a map without `false` values the lookup `m[k]` is `true` exactly for the
stored keys that are equal to themselves. -/
theorem index_eq_true_iff {m : GoMap κ} (h : ∀ e ∈ m, e.2 = true) (k : κ) :
    m.index k = true ↔ k ∈ m.keys ∧ GoValue.selfEqual k = true := by
  induction m with
  | nil => simp [index, keys]
  | cons e m ih =>
    obtain ⟨k', v'⟩ := e
    have hv : v' = true := h (k', v') (List.mem_cons_self _ _)
    have ih' := ih (fun e he => h e (List.mem_cons_of_mem _ he))
    by_cases hk : goEq k' k = true
    · obtain ⟨rfl, hs⟩ := (goEq_eq_true_iff k' k).1 hk
      simp [index, keys, hv, hk, hs]
    · simp only [index, if_neg hk, keys_cons, List.mem_cons, ih']
      constructor
      · exact fun hx => ⟨Or.inr hx.1, hx.2⟩
      · rintro ⟨rfl | hx, hs⟩
        · exact absurd (goEq_self hs) hk
        · exact ⟨hx, hs⟩

theorem index_eq_false_iff {m : GoMap κ} (h : ∀ e ∈ m, e.2 = true) (k : κ) :
    m.index k = false ↔ ¬ (k ∈ m.keys ∧ GoValue.selfEqual k = true) := by
  rw [← index_eq_true_iff h k]; simp

/-- A key that is not equal to itself is never found by a lookup. -/
theorem index_of_not_selfEqual (m : GoMap κ) {k : κ} (h : GoValue.selfEqual k = false) :
    m.index k = false := by
  induction m with
  | nil => rfl
  | cons e m ih =>
    obtain ⟨k', v'⟩ := e
    simp [index, goEq_of_not_selfEqual k' h, ih]

/-- A map without NaN of the reachable shape stores no key twice. -/
theorem WF.nodup_keys {m : GoMap κ} (h : m.WF) (hr : m.Regular) : m.keys.Nodup := by
  have e : m.keys.filter GoValue.selfEqual = m.keys :=
    List.filter_eq_self.2 (fun k hk => hr k hk)
  rw [← e]
  exact h.nodup

theorem regular_of_perm {m m' : GoMap κ} (h : m.Regular) (p : m.Perm m') : m'.Regular :=
  fun k hk => h k ((p.map Prod.fst).mem_iff.2 hk)

end GoMap


/-! ## The loops that fill a set -/

section Loops

variable {setMember : Type} [DecidableEq setMember] [GoValue setMember]

theorem wf_NewSet : (NewSet : Set setMember).mem.WF := GoMap.wf_make

theorem member_iff {s : Set setMember} (h : s.mem.WF) (x : setMember) :
    s.member x = true ↔ x ∈ s.mem.keys ∧ GoValue.selfEqual x = true :=
  GoMap.index_eq_true_iff h.allTrue x

theorem member_iff_of_regular {s : Set setMember} (h : s.mem.WF) (hr : s.mem.Regular)
    (x : setMember) : s.member x = true ↔ x ∈ s.mem.keys :=
  (member_iff h x).trans ⟨fun hx => hx.1, fun hx => ⟨hx, hr x hx⟩⟩

/-- A `range` loop whose body stores the key when a test `p` holds keeps the keys
it started with and adds the visited keys that pass the test. -/
theorem mem_keys_foldl (p : setMember → Prop) [DecidablePred p]
    (f : Set setMember → setMember → Set setMember)
    (hf : ∀ r k, f r k = if p k then ⟨r.mem.assign k true⟩ else r)
    (l : List setMember) (r : Set setMember) (x : setMember) :
    x ∈ (l.foldl f r).mem.keys ↔ x ∈ r.mem.keys ∨ (x ∈ l ∧ p x) := by
  induction l generalizing r with
  | nil => simp
  | cons k l ih =>
    rw [List.foldl_cons, ih, hf]
    by_cases hk : p k
    · simp only [if_pos hk, GoMap.mem_keys_assign, List.mem_cons]
      constructor
      · rintro ((rfl | h) | ⟨h, hp⟩)
        · exact Or.inr ⟨Or.inl rfl, hk⟩
        · exact Or.inl h
        · exact Or.inr ⟨Or.inr h, hp⟩
      · rintro (h | ⟨rfl | h, hp⟩)
        · exact Or.inl (Or.inr h)
        · exact Or.inl (Or.inl rfl)
        · exact Or.inr ⟨h, hp⟩
    · simp only [if_neg hk, List.mem_cons]
      constructor
      · rintro (h | ⟨h, hp⟩)
        · exact Or.inl h
        · exact Or.inr ⟨Or.inr h, hp⟩
      · rintro (h | ⟨rfl | h, hp⟩)
        · exact Or.inl h
        · exact absurd hp hk
        · exact Or.inr ⟨h, hp⟩

theorem wf_foldl (p : setMember → Prop) [DecidablePred p]
    (f : Set setMember → setMember → Set setMember)
    (hf : ∀ r k, f r k = if p k then ⟨r.mem.assign k true⟩ else r)
    (l : List setMember) (r : Set setMember) (h : r.mem.WF) :
    (l.foldl f r).mem.WF := by
  induction l generalizing r with
  | nil => simpa using h
  | cons k l ih =>
    rw [List.foldl_cons]
    apply ih
    rw [hf]
    by_cases hk : p k
    · rw [if_pos hk]; exact h.assign k
    · rw [if_neg hk]; exact h

theorem wf_Append {s : Set setMember} (h : s.mem.WF) (x : setMember) : (s.Append x).mem.WF :=
  h.assign x

theorem wf_Remove {s : Set setMember} (h : s.mem.WF) (x : setMember) : (s.Remove x).mem.WF :=
  h.delete x

theorem mem_keys_Union (a b : Set setMember) (x : setMember) :
    x ∈ (a.Union b).mem.keys ↔ x ∈ a.mem.keys ∨ x ∈ b.mem.keys := by
  unfold Set.Union
  simp only []
  rw [mem_keys_foldl (fun _ => True) _ (fun r k => by simp),
    mem_keys_foldl (fun _ => True) _ (fun r k => by simp)]
  simp [NewSet, GoMap.make, GoMap.keys]

theorem wf_Union (a b : Set setMember) : (a.Union b).mem.WF := by
  unfold Set.Union
  simp only []
  exact wf_foldl (fun _ => True) _ (fun r k => by simp) _ _
    (wf_foldl (fun _ => True) _ (fun r k => by simp) _ _ wf_NewSet)

theorem mem_keys_Intersection (a b : Set setMember) (x : setMember) :
    x ∈ (a.Intersection b).mem.keys ↔ x ∈ a.mem.keys ∧ b.mem.index x = true := by
  unfold Set.Intersection
  simp only []
  rw [mem_keys_foldl (fun k => b.mem.index k = true) _ (fun r k => by simp)]
  simp [NewSet, GoMap.make, GoMap.keys]

theorem wf_Intersection (a b : Set setMember) : (a.Intersection b).mem.WF := by
  unfold Set.Intersection
  simp only []
  exact wf_foldl (fun k => b.mem.index k = true) _ (fun r k => by simp) _ _ wf_NewSet

theorem mem_keys_RelCompl (a b : Set setMember) (x : setMember) :
    x ∈ (a.RelCompl b).mem.keys ↔ x ∈ a.mem.keys ∧ b.mem.index x = false := by
  unfold Set.RelCompl
  simp only []
  rw [mem_keys_foldl (fun k => b.mem.index k = false) _ (fun r k => by simp)]
  simp [NewSet, GoMap.make, GoMap.keys]

theorem wf_RelCompl (a b : Set setMember) : (a.RelCompl b).mem.WF := by
  unfold Set.RelCompl
  simp only []
  exact wf_foldl (fun k => b.mem.index k = false) _ (fun r k => by simp) _ _ wf_NewSet

/-- What `Equals` computes, loop by loop. -/
theorem Equals_eq_true_iff (a b : Set setMember) :
    Equals a b = true ↔
      a.mem.len = b.mem.len ∧ ∀ k ∈ a.mem.keys, b.mem.index k = true := by
  unfold Equals
  by_cases h : a.mem.len = b.mem.len
  · simp [h]
  · simp [h]

/-- What `Equals` decides on maps of the reachable shape: neither map holds a key
that is not equal to itself, and the two hold the same keys. -/
theorem Equals_iff {a b : Set setMember} (ha : a.mem.WF) (hb : b.mem.WF) :
    Equals a b = true ↔
      a.mem.Regular ∧ b.mem.Regular ∧ ∀ x, x ∈ a.mem.keys ↔ x ∈ b.mem.keys := by
  rw [Equals_eq_true_iff]
  constructor
  · rintro ⟨hlen, hsub⟩
    have hsub' : ∀ k ∈ a.mem.keys, k ∈ b.mem.keys ∧ GoValue.selfEqual k = true := fun k hk =>
      (GoMap.index_eq_true_iff hb.allTrue k).1 (hsub k hk)
    have hra : a.mem.Regular := fun k hk => (hsub' k hk).2
    have hsubf : a.mem.keys ⊆ b.mem.keys.filter GoValue.selfEqual := fun k hk =>
      List.mem_filter.2 (hsub' k hk)
    have hle : (b.mem.keys.filter GoValue.selfEqual).length ≤ a.mem.keys.length := by
      have h1 := List.length_filter_le GoValue.selfEqual b.mem.keys
      simp only [GoMap.keys, GoMap.len, List.length_map] at hlen h1 ⊢
      omega
    have hperm : a.mem.keys.Perm (b.mem.keys.filter GoValue.selfEqual) :=
      (List.subperm_of_subset (ha.nodup_keys hra) hsubf).perm_of_length_le hle
    have hfil : b.mem.keys.filter GoValue.selfEqual = b.mem.keys := by
      apply List.Sublist.eq_of_length (List.filter_sublist _)
      have h2 := hperm.length_eq
      simp only [GoMap.keys, GoMap.len, List.length_map] at hlen h2 ⊢
      omega
    rw [hfil] at hperm
    refine ⟨hra, ?_, fun x => hperm.mem_iff⟩
    intro k hk
    rw [← hfil] at hk
    exact (List.mem_filter.1 hk).2
  · rintro ⟨hra, hrb, h⟩
    have hperm : a.mem.keys.Perm b.mem.keys :=
      (List.perm_ext_iff_of_nodup (ha.nodup_keys hra) (hb.nodup_keys hrb)).2 h
    refine ⟨?_, fun k hk =>
      (GoMap.index_eq_true_iff hb.allTrue k).2 ⟨(h k).1 hk, hra k hk⟩⟩
    simpa [GoMap.keys, GoMap.len] using hperm.length_eq

/-- On maps of the reachable shape without NaN `Equals` decides equality of the
key sets. -/
theorem Equals_iff_keys {a b : Set setMember} (ha : a.mem.WF) (hb : b.mem.WF)
    (hra : a.mem.Regular) (hrb : b.mem.Regular) :
    Equals a b = true ↔ ∀ x, x ∈ a.mem.keys ↔ x ∈ b.mem.keys := by
  rw [Equals_iff ha hb]
  exact ⟨fun h => h.2.2, fun h => ⟨hra, hrb, h⟩⟩

theorem regular_NewSet : (NewSet : Set setMember).mem.Regular := fun _ hk => by cases hk

end Loops


/-! ## `pow` on a 64-bit `int` -/

theorem wrapInt_modEq (x : Int) : wrapInt x ≡ x [ZMOD 2 ^ 64] := by
  unfold wrapInt
  have h : (x + 2 ^ 63) % 2 ^ 64 ≡ x + 2 ^ 63 [ZMOD 2 ^ 64] := Int.mod_modEq _ _
  have h' := h.sub_right (2 ^ 63)
  rwa [add_sub_cancel_right] at h'

theorem wrapInt_congr {x y : Int} (h : x ≡ y [ZMOD 2 ^ 64]) : wrapInt x = wrapInt y := by
  unfold wrapInt
  have h' : (x + 2 ^ 63) % 2 ^ 64 = (y + 2 ^ 63) % 2 ^ 64 := h.add_right (2 ^ 63)
  rw [h']

theorem wrapInt_idem (x : Int) : wrapInt (wrapInt x) = wrapInt x :=
  wrapInt_congr (wrapInt_modEq x)

/-- With enough fuel the loop of `pow` returns the wrapped power. -/
theorem powLoop_eq (fuel : Nat) : ∀ (e : Nat) (p a : Int), e ≤ fuel → wrapInt p = p →
    powLoop fuel p a e = wrapInt (p * a ^ e) := by
  induction fuel with
  | zero =>
    intro e p a he hp
    have h0 : e = 0 := by omega
    subst h0
    simp [powLoop, hp]
  | succ f ih =>
    intro e p a he hp
    unfold powLoop
    by_cases h0 : (e : Int) > 0
    · rw [if_pos h0]
      have hdiv : ((e : Int) / 2) = ((e / 2 : Nat) : Int) := by norm_cast
      have ha : wrapInt (a * a) ^ (e / 2) ≡ (a * a) ^ (e / 2) [ZMOD 2 ^ 64] :=
        (wrapInt_modEq _).pow _
      have he2 : 2 * (e / 2) + e % 2 = e := Nat.div_add_mod e 2
      simp only []
      by_cases hodd : (e : Int) % 2 ≠ 0
      · rw [if_pos hodd, hdiv, ih (e / 2) _ _ (by omega) (wrapInt_idem _)]
        apply wrapInt_congr
        have h1 : e % 2 = 1 := by omega
        have hpow : p * a ^ e = p * a * (a * a) ^ (e / 2) := by
          conv_lhs => rw [← he2, h1]
          ring
        rw [hpow]
        exact (wrapInt_modEq _).mul ha
      · rw [if_neg hodd, hdiv, ih (e / 2) _ _ (by omega) hp]
        apply wrapInt_congr
        have h1 : e % 2 = 0 := by omega
        have hpow : p * a ^ e = p * (a * a) ^ (e / 2) := by
          conv_lhs => rw [← he2, h1]
          ring
        rw [hpow]
        exact (Int.ModEq.refl p).mul ha
    · rw [if_neg h0]
      have h0' : e = 0 := by omega
      subst h0'
      simp [hp]

/-- The function `pow(2, n)` returns `2 ^ n` reduced to a 64-bit `int`. -/
theorem pow_two (n : Nat) : pow 2 (n : Int) = wrapInt (2 ^ n) := by
  unfold pow
  rw [Int.toNat_natCast, powLoop_eq n n 1 2 le_rfl (by decide), one_mul]

theorem pow_two_of_le {n : Nat} (h : n ≤ 62) : pow 2 (n : Int) = 2 ^ n := by
  rw [pow_two]
  unfold wrapInt
  have h1 : (2 : Int) ^ n ≤ 2 ^ 62 := pow_le_pow_right₀ (by norm_num) h
  have h2 : (0 : Int) < 2 ^ n := by positivity
  rw [Int.emod_eq_of_lt (by omega) (by omega)]
  ring

theorem pow_two_of_gt {n : Nat} (h : 62 < n) : pow 2 (n : Int) ≤ 0 := by
  rw [pow_two]
  unfold wrapInt
  obtain ⟨k, rfl⟩ : ∃ k, n = 63 + k := ⟨n - 63, by omega⟩
  rcases Nat.eq_zero_or_pos k with rfl | hk
  · decide
  · obtain ⟨j, rfl⟩ : ∃ j, k = j + 1 := ⟨k - 1, by omega⟩
    have e : (2 : Int) ^ (63 + (j + 1)) = 2 ^ j * 2 ^ 64 := by ring
    rw [e, Int.add_comm, Int.add_mul_emod_self]
    decide

/-- The number of rounds of the two loops of `subsets`. -/
theorem pow_two_toNat (n : Nat) : (pow 2 (n : Int)).toNat = if n ≤ 62 then 2 ^ n else 0 := by
  split_ifs with h
  · rw [pow_two_of_le h]
    norm_cast
  · exact Int.toNat_eq_zero.2 (pow_two_of_gt (by omega))


/-! ## The index strings of `subsets` -/

theorem bitString_zero (n : Nat) : bitString n 0 = List.replicate n '0' := by
  induction n with
  | zero => rfl
  | succ n ih =>
    rw [bitString, Nat.zero_div, ih, List.replicate_succ']
    rfl

/-- The digits `%b` writes, padded to a width that holds them, are the low
digits of the number. -/
theorem fmtBinaryLoop_spec (fuel : Nat) : ∀ (u : Nat) (buf : List Char) (n : Nat),
    u ≤ fuel → u < 2 ^ n → 1 ≤ n →
    ∃ d, fmtBinaryLoop fuel u buf = d ++ buf ∧ d.length ≤ n ∧
      List.replicate (n - d.length) '0' ++ d = bitString n u := by
  induction fuel with
  | zero =>
    intro u buf n hu _ hn
    have h0 : u = 0 := by omega
    subst h0
    obtain ⟨m, rfl⟩ : ∃ m, n = m + 1 := ⟨n - 1, by omega⟩
    refine ⟨[binDigit 0], rfl, by simp, ?_⟩
    rw [bitString_zero, List.replicate_succ']
    simp [binDigit]
  | succ f ih =>
    intro u buf n hu hlt hn
    obtain ⟨m, rfl⟩ : ∃ m, n = m + 1 := ⟨n - 1, by omega⟩
    unfold fmtBinaryLoop
    by_cases h2 : u ≥ 2
    · rw [if_pos h2]
      have hm : 1 ≤ m := by
        rcases Nat.eq_zero_or_pos m with rfl | h
        · simp at hlt; omega
        · exact h
      have hlt' : u / 2 < 2 ^ m := by
        rw [Nat.div_lt_iff_lt_mul (by norm_num)]
        rw [pow_succ] at hlt
        exact hlt
      obtain ⟨d, hd, hlen, hrep⟩ := ih (u / 2) (binDigit u :: buf) m (by omega) hlt' hm
      refine ⟨d ++ [binDigit u], by simp [hd], by simp; omega, ?_⟩
      rw [bitString, ← hrep]
      simp
    · rw [if_neg h2]
      refine ⟨[binDigit u], rfl, by simp, ?_⟩
      have hu2 : u / 2 = 0 := by omega
      rw [bitString, hu2, bitString_zero]
      simp

theorem Sprintf_binaryLen_eq {n i : Nat} (hn : 1 ≤ n) (hi : i < 2 ^ n) :
    Sprintf_binaryLen n i = bitString n i := by
  obtain ⟨d, hd, _, hrep⟩ := fmtBinaryLoop_spec i i [] n le_rfl hi hn
  unfold Sprintf_binaryLen fmtBinary
  simp only []
  rw [hd, List.append_nil]
  exact hrep

theorem binDigit_mod (i n : Nat) : binDigit (i % 2 ^ (n + 1)) = binDigit i := by
  unfold binDigit
  rw [pow_succ', Nat.mod_mul_right_mod]

/-- The first of `n + 1` digits is the bit of weight `2 ^ n`. -/
theorem bitString_succ (n : Nat) : ∀ i : Nat,
    bitString (n + 1) i = binDigit (i / 2 ^ n) :: bitString n (i % 2 ^ n) := by
  induction n with
  | zero => intro i; simp [bitString]
  | succ n ih =>
    intro i
    rw [bitString, ih (i / 2), bitString, binDigit_mod]
    have h1 : i / 2 / 2 ^ n = i / 2 ^ (n + 1) := by
      rw [Nat.div_div_eq_div_mul, pow_succ']
    have h2 : i / 2 % 2 ^ n = i % 2 ^ (n + 1) / 2 := by
      rw [pow_succ', Nat.mod_mul_right_div_self]
    rw [h1, h2]
    rfl

theorem bitString_of_lt {n i : Nat} (h : i < 2 ^ n) :
    bitString (n + 1) i = '0' :: bitString n i := by
  rw [bitString_succ, Nat.div_eq_of_lt h, Nat.mod_eq_of_lt h]
  rfl

theorem bitString_add {n i : Nat} (h : i < 2 ^ n) :
    bitString (n + 1) (2 ^ n + i) = '1' :: bitString n i := by
  have hpos : 0 < 2 ^ n := by positivity
  rw [bitString_succ, Nat.add_div_left _ hpos, Nat.div_eq_of_lt h, Nat.add_mod_left,
    Nat.mod_eq_of_lt h]
  rfl

/-! ## The loops of `subsets` and `PowerSet` -/

section Subsets

variable {setMember : Type} [DecidableEq setMember] [GoValue setMember]

theorem foldl_append_singleton {α β : Type} (g : α → β) (l : List α) (init : List β) :
    l.foldl (fun acc i => acc ++ [g i]) init = init ++ l.map g := by
  induction l generalizing init with
  | nil => simp
  | cons a l ih => simp [ih]

theorem pick_nil_right {α : Type} (xs : List α) : pick xs [] = [] := by
  cases xs <;> rfl

/-- The inner loop of `subsets` picks the elements under the digits `'1'`. -/
theorem pickLoop_eq (xs : List setMember) : ∀ (S : List Char) (acc : List setMember),
    (List.range xs.length).foldl
      (fun subsets k =>
        if S.getD k ' ' = '1' then
          match xs[k]? with
          | some x => subsets ++ [x]
          | none => subsets
        else subsets) acc = acc ++ pick xs S := by
  induction xs with
  | nil => intro S acc; simp [pick]
  | cons x xs ih =>
    intro S acc
    rw [List.length_cons, List.range_succ_eq_map, List.foldl_cons, List.foldl_map]
    cases S with
    | nil =>
      have h := ih [] acc
      simp only [List.getD_nil, List.getElem?_cons_succ, List.getD_cons_zero] at h ⊢
      simp only [pick_nil_right, List.append_nil] at h ⊢
      simp
    | cons c cs =>
      simp only [List.getD_cons_succ, List.getElem?_cons_succ, List.getD_cons_zero,
        List.getElem?_cons_zero]
      rw [ih cs]
      by_cases hc : c = '1'
      · simp [pick, hc]
      · simp [pick, hc]

theorem getD_map_range {β : Type} (g : Nat → β) (b i : Nat) (d : β) (h : i < b) :
    ((List.range b).map g).getD i d = g i := by
  simp [List.getD, h]

/-- The function `subsets`, loop by loop. -/
theorem subsets_eq_map (xs : List setMember) :
    subsets xs = (List.range (pow 2 xs.length).toNat).map
      (fun i => pick xs (Sprintf_binaryLen xs.length i)) := by
  unfold subsets
  simp only [foldl_append_singleton, List.nil_append, pickLoop_eq]
  apply List.map_congr_left
  intro i hi
  rw [getD_map_range _ _ _ _ (List.mem_range.1 hi)]

theorem map_pick_bitString (xs : List setMember) :
    (List.range (2 ^ xs.length)).map (fun i => pick xs (bitString xs.length i))
      = xs.sublists' := by
  induction xs with
  | nil => rfl
  | cons x xs ih =>
    rw [List.sublists'_cons, ← ih, List.length_cons, pow_succ, Nat.mul_two, List.range_add,
      List.map_append, List.map_map, List.map_map]
    congr 1
    · apply List.map_congr_left
      intro i hi
      rw [bitString_of_lt (List.mem_range.1 hi)]
      simp [pick]
    · apply List.map_congr_left
      intro i hi
      simp only [Function.comp]
      rw [bitString_add (List.mem_range.1 hi)]
      simp [pick]

/-- While `2 ^ n` fits an `int`, `subsets` lists the sublists of its argument,
the one of index `i` being selected by the binary digits of `i`. -/
theorem subsets_of_le {xs : List setMember} (h : xs.length ≤ 62) :
    subsets xs = xs.sublists' := by
  rw [subsets_eq_map, pow_two_toNat, if_pos h, ← map_pick_bitString]
  apply List.map_congr_left
  intro i hi
  rcases Nat.eq_zero_or_pos xs.length with h0 | hpos
  · have hx : xs = [] := List.length_eq_zero.1 h0
    subst hx
    rfl
  · rw [Sprintf_binaryLen_eq hpos (List.mem_range.1 hi)]

/-- From 63 elements on `pow(2, n)` is not positive and both loops of `subsets`
are skipped. -/
theorem subsets_of_gt {xs : List setMember} (h : 62 < xs.length) : subsets xs = [] := by
  rw [subsets_eq_map, pow_two_toNat, if_neg (by omega)]
  rfl

end Subsets


/-! ## `PowerSet` and the reachable sets -/

section Power

variable {setMember : Type} [DecidableEq setMember] [GoValue setMember]

theorem foldl_range_getElem {α β : Type} (f : β → α → β) (l : List α) : ∀ init : β,
    (List.range l.length).foldl
      (fun ns k =>
        match l[k]? with
        | some x => f ns x
        | none => ns) init = l.foldl f init := by
  induction l with
  | nil => intro init; rfl
  | cons a l ih =>
    intro init
    rw [List.length_cons, List.range_succ_eq_map, List.foldl_cons, List.foldl_map]
    simp only [List.getElem?_cons_succ, List.getElem?_cons_zero, List.foldl_cons]
    exact ih (f init a)

theorem map_range_getD {α β : Type} (g : α → β) (L : List α) (d : α) :
    (List.range L.length).map (fun i => g (L.getD i d)) = L.map g := by
  apply List.ext_getElem
  · simp
  · intro i h1 h2
    simp only [List.length_map, List.length_range] at h1
    simp [List.getD, h1]

theorem newSubSet_eq (l : List setMember) : newSubSet l = ofSlice l := by
  unfold newSubSet ofSlice
  exact foldl_range_getElem (fun ns x => (⟨ns.mem.assign x true⟩ : Set setMember)) l NewSet

theorem mem_keys_ofSlice (l : List setMember) (x : setMember) :
    x ∈ (ofSlice l).mem.keys ↔ x ∈ l := by
  unfold ofSlice
  rw [mem_keys_foldl (fun _ => True) Set.Append (fun r k => by simp [Set.Append])]
  simp [NewSet, GoMap.make, GoMap.keys]

theorem wf_ofSlice (l : List setMember) : (ofSlice l).mem.WF :=
  wf_foldl (fun _ => True) Set.Append (fun r k => by simp [Set.Append]) l _ wf_NewSet

/-- The function `PowerSet`, loop by loop: one set per entry of `subsets`. -/
theorem PowerSet_eq_map (s : Set setMember) :
    PowerSet s = (subsets s.mem.keys).map ofSlice := by
  unfold PowerSet
  simp only [foldl_append_singleton, List.nil_append, List.map_id']
  rw [map_range_getD newSubSet (subsets s.mem.keys) []]
  exact List.map_congr_left (fun l _ => newSubSet_eq l)

theorem PowerSet_of_le {s : Set setMember} (h : s.mem.len ≤ 62) :
    PowerSet s = s.mem.keys.sublists'.map ofSlice := by
  rw [PowerSet_eq_map, subsets_of_le (by simpa [GoMap.keys, GoMap.len] using h)]

theorem PowerSet_of_gt {s : Set setMember} (h : 62 < s.mem.len) : PowerSet s = [] := by
  rw [PowerSet_eq_map, subsets_of_gt (by simpa [GoMap.keys, GoMap.len] using h)]
  rfl

theorem wf_of_mem_PowerSet {s t : Set setMember} (h : t ∈ PowerSet s) : t.mem.WF := by
  rw [PowerSet_eq_map, List.mem_map] at h
  obtain ⟨l, _, rfl⟩ := h
  exact wf_ofSlice l

/-- Every set built by the public operations has a map of the reachable shape. -/
theorem Built.wf {s : Set setMember} (h : Built s) : s.mem.WF := by
  induction h with
  | newSet => exact wf_NewSet
  | append x _ ih => exact wf_Append ih x
  | remove x _ ih => exact wf_Remove ih x
  | union _ _ _ _ => exact wf_Union _ _
  | intersection _ _ _ _ => exact wf_Intersection _ _
  | relCompl _ _ _ _ => exact wf_RelCompl _ _
  | powerSet _ ht _ => exact wf_of_mem_PowerSet ht
  | reorder _ hp ih => exact ih.perm hp

theorem Built.ofSlice (l : List setMember) : Built (ofSlice l) := by
  have h : ∀ (l : List setMember) (r : Set setMember), Built r → Built (l.foldl Set.Append r) := by
    intro l
    induction l with
    | nil => intro r hr; exact hr
    | cons a l ih => intro r hr; exact ih _ (Built.append a hr)
  exact h l NewSet Built.newSet

theorem member_eq_decide {s : Set setMember} (h : s.mem.WF) (hr : s.mem.Regular)
    (x : setMember) : s.member x = decide (x ∈ s.mem.keys) := by
  rw [Bool.eq_iff_iff, member_iff_of_regular h hr]
  simp

/-- On reachable sets `Equals` decides that neither set holds a NaN and that the
memberships are equal. -/
theorem Equals_iff_regular_member {a b : Set setMember} (ha : a.mem.WF) (hb : b.mem.WF) :
    Equals a b = true ↔
      a.mem.Regular ∧ b.mem.Regular ∧ ∀ x, a.member x = b.member x := by
  rw [Equals_iff ha hb]
  constructor
  · rintro ⟨hra, hrb, h⟩
    refine ⟨hra, hrb, fun x => ?_⟩
    rw [member_eq_decide ha hra, member_eq_decide hb hrb]
    exact decide_eq_decide.2 (h x)
  · rintro ⟨hra, hrb, h⟩
    refine ⟨hra, hrb, fun x => ?_⟩
    rw [← member_iff_of_regular ha hra, ← member_iff_of_regular hb hrb, h x]

/-- On reachable sets without NaN `Equals` decides equality of the memberships. -/
theorem Equals_iff_member {a b : Set setMember} (ha : a.mem.WF) (hb : b.mem.WF)
    (hra : a.mem.Regular) (hrb : b.mem.Regular) :
    Equals a b = true ↔ ∀ x, a.member x = b.member x := by
  rw [Equals_iff_regular_member ha hb]
  exact ⟨fun h => h.2.2, fun h => ⟨hra, hrb, h⟩⟩

/-- Every map of ints and strings is without NaN. -/
theorem regular_Value (m : GoMap Value) : m.Regular := fun _ _ => rfl

end Power


/-! ## Equality and the binary operations -/

section Claims

variable {setMember : Type} [DecidableEq setMember] [GoValue setMember]

theorem built_nanSet : Built nanSet := Built.append _ Built.newSet

/-- C1, as amended: for sets `a` and `b` built through the public operations
whose elements are all equal to themselves (no NaN), `Equals(a, b)` is true if
and only if every element is a member of `a` exactly when it is a member of
`b`. -/
theorem Equals_iff_same_elements {a b : Set setMember} (ha : Built a) (hb : Built b)
    (hra : a.mem.Regular) (hrb : b.mem.Regular) :
    Equals a b = true ↔ ∀ x, (a.member x = true ↔ b.member x = true) := by
  rw [Equals_iff_member ha.wf hb.wf hra hrb]
  exact forall_congr' (fun x => Bool.eq_iff_iff)

/-- The characterisation of `Equals` applied to `theSet` and a reordering of its elements
with one of them repeated. -/
theorem Equals_iff_same_elements_witness :
    Built theSet ∧ Built (ofSlice [Value.str "b", Value.int 3, Value.str "a", Value.int 2,
      Value.int 1, Value.int 3]) ∧
    (Equals theSet (ofSlice [Value.str "b", Value.int 3, Value.str "a", Value.int 2,
      Value.int 1, Value.int 3]) = true ↔
      ∀ x, (theSet.member x = true ↔
        (ofSlice [Value.str "b", Value.int 3, Value.str "a", Value.int 2,
          Value.int 1, Value.int 3]).member x = true)) :=
  ⟨Built.ofSlice _, Built.ofSlice _,
    Equals_iff_same_elements (Built.ofSlice _) (Built.ofSlice _)
      (regular_Value _) (regular_Value _)⟩

/-- C1, as stated, fails at `a = {NaN}` and `b = {}`: no element is a member of
either, so the two have the same members, and `Equals(a, b)` is false; and
`Equals(a, a)` is false for the one set `a`. -/
theorem Equals_iff_same_elements_counterexample :
    Built nanSet ∧ Built (NewSet : Set Dynamic) ∧
    (∀ x, (nanSet.member x = true ↔ (NewSet : Set Dynamic).member x = true)) ∧
    Equals nanSet NewSet = false ∧
    Equals nanSet nanSet = false := by
  refine ⟨built_nanSet, Built.newSet, ?_, by decide, by decide⟩
  intro x
  simp [Set.member, nanSet, NewSet, Set.Append, GoMap.make, GoMap.assign, GoMap.index, goEq,
    GoValue.selfEqual]

/-- C2, as amended: on sets built through the public operations `Equals` is
symmetric, `Equals(a, b) = Equals(b, a)`, although the loop only looks up the
keys of its first operand in the second; and `Equals(a, a)` is true for every
such set whose elements are all equal to themselves (no NaN). -/
theorem Equals_refl_symm {a b : Set setMember} (ha : Built a) (hb : Built b) :
    (a.mem.Regular → Equals a a = true) ∧ Equals a b = Equals b a := by
  constructor
  · intro hr
    exact (Equals_iff_member ha.wf ha.wf hr hr).2 (fun _ => rfl)
  · rw [Bool.eq_iff_iff, Equals_iff_regular_member ha.wf hb.wf,
      Equals_iff_regular_member hb.wf ha.wf]
    exact ⟨fun h => ⟨h.2.1, h.1, fun x => (h.2.2 x).symm⟩,
      fun h => ⟨h.2.1, h.1, fun x => (h.2.2 x).symm⟩⟩

/-- Reflexivity and symmetry of `Equals` applied to the two sets of `main`. -/
theorem Equals_refl_symm_witness :
    Built theSet ∧ Built theOtherSet ∧
    (Equals theSet theSet = true ∧ Equals theSet theOtherSet = Equals theOtherSet theSet) :=
  ⟨Built.ofSlice _, Built.ofSlice _,
    (Equals_refl_symm (a := theSet) (b := theOtherSet) (Built.ofSlice _) (Built.ofSlice _)).1
      (regular_Value _),
    (Equals_refl_symm (a := theSet) (b := theOtherSet) (Built.ofSlice _) (Built.ofSlice _)).2⟩

/-- C2, as stated, fails at the set `n` of `n := NewSet(); n.Append(math.NaN())`:
`Equals(n, n)` is false. -/
theorem Equals_refl_symm_counterexample :
    Built nanSet ∧ Equals nanSet nanSet = false :=
  ⟨built_nanSet, by decide⟩

/-- C3: for sets `a` and `b` built through the public operations, `x` is a member
of `a.Union(b)` if and only if `x` is a member of `a` or a member of `b`. -/
theorem Union_member_iff {a b : Set setMember} (ha : Built a) (hb : Built b) (x : setMember) :
    (a.Union b).member x = true ↔ a.member x = true ∨ b.member x = true := by
  rw [member_iff (wf_Union a b), member_iff ha.wf, member_iff hb.wf, mem_keys_Union]
  tauto

/-- Membership in a union applied to the two sets of `main` and the element `"c"`. -/
theorem Union_member_iff_witness :
    Built theSet ∧ Built theOtherSet ∧
    ((theSet.Union theOtherSet).member (Value.str "c") = true ↔
      theSet.member (Value.str "c") = true ∨ theOtherSet.member (Value.str "c") = true) :=
  ⟨Built.ofSlice _, Built.ofSlice _,
    Union_member_iff (Built.ofSlice _) (Built.ofSlice _) (Value.str "c")⟩

/-- C4: for a set `a` built through the public operations and every set `b`, `x`
is a member of `a.Intersection(b)` if and only if `x` is a member of both `a`
and `b`. -/
theorem Intersection_member_iff {a : Set setMember} (ha : Built a) (b : Set setMember)
    (x : setMember) :
    (a.Intersection b).member x = true ↔ a.member x = true ∧ b.member x = true := by
  rw [member_iff (wf_Intersection a b), member_iff ha.wf, mem_keys_Intersection]
  show _ ↔ _ ∧ b.mem.index x = true
  tauto

/-- Membership in an intersection applied to the two sets of `main` and the element `2`. -/
theorem Intersection_member_iff_witness :
    Built theSet ∧
    ((theSet.Intersection theOtherSet).member (Value.int 2) = true ↔
      theSet.member (Value.int 2) = true ∧ theOtherSet.member (Value.int 2) = true) :=
  ⟨Built.ofSlice _, Intersection_member_iff (Built.ofSlice _) theOtherSet (Value.int 2)⟩

end Claims

/-- C5: for a set `a` built through the public operations and every set
`universe`, `x` is a member of `a.RelCompl(universe)` if and only if `x` is a
member of `a` and not a member of `universe`; and when `a` is
`{1, 2, 3, "a", "b", "d"}` and `universe` holds `1, 2, 3, "a", "b"` but not `"d"`,
the result is `Equal` to `{"d"}`. -/
theorem RelCompl_member_iff :
    (∀ (setMember : Type) [DecidableEq setMember] [GoValue setMember]
      (a universeSet : Set setMember),
      Built a → ∀ x : setMember,
        ((a.RelCompl universeSet).member x = true ↔
          a.member x = true ∧ universeSet.member x = false)) ∧
    (∀ a universeSet : Set Value, Built a →
      (∀ x, a.member x = true ↔ x ∈ [Value.int 1, Value.int 2, Value.int 3, Value.str "a",
        Value.str "b", Value.str "d"]) →
      (∀ x ∈ [Value.int 1, Value.int 2, Value.int 3, Value.str "a", Value.str "b"],
        universeSet.member x = true) →
      universeSet.member (Value.str "d") = false →
      Equals (a.RelCompl universeSet) oneElementSet = true) := by
  have key : ∀ (setMember : Type) [DecidableEq setMember] [GoValue setMember]
      (a universeSet : Set setMember),
      Built a → ∀ x : setMember,
        ((a.RelCompl universeSet).member x = true ↔
          a.member x = true ∧ universeSet.member x = false) := by
    intro α _ _ a u ha x
    rw [member_iff (wf_RelCompl a u), member_iff ha.wf, mem_keys_RelCompl]
    show _ ↔ _ ∧ u.mem.index x = false
    tauto
  refine ⟨key, ?_⟩
  intro a u ha hmem hsup hd
  have ho : Built oneElementSet := Built.append _ Built.newSet
  rw [Equals_iff_member (wf_RelCompl a u) ho.wf (regular_Value _) (regular_Value _)]
  intro x
  rw [Bool.eq_iff_iff, key Value a u ha x, hmem x]
  have hone : oneElementSet.member x = true ↔ x = Value.str "d" := by
    rw [member_iff_of_regular ho.wf (regular_Value _)]
    show x ∈ ((NewSet : Set Value).mem.assign (Value.str "d") true).keys ↔ _
    rw [GoMap.mem_keys_assign]
    simp [NewSet, GoMap.make, GoMap.keys]
  rw [hone]
  constructor
  · rintro ⟨hx, hux⟩
    simp only [List.mem_cons, List.mem_singleton, List.not_mem_nil, or_false] at hx
    rcases hx with rfl | rfl | rfl | rfl | rfl | rfl
    · rw [hsup _ (by simp)] at hux; cases hux
    · rw [hsup _ (by simp)] at hux; cases hux
    · rw [hsup _ (by simp)] at hux; cases hux
    · rw [hsup _ (by simp)] at hux; cases hux
    · rw [hsup _ (by simp)] at hux; cases hux
    · rfl
  · rintro rfl
    exact ⟨by simp, hd⟩

theorem member_theSetD (x : Value) :
    theSetD.member x = true ↔
      x ∈ [Value.int 1, Value.int 2, Value.int 3, Value.str "a", Value.str "b", Value.str "d"] := by
  refine (member_iff_of_regular (s := theSetD) (wf_Append (wf_ofSlice _) _)
    (regular_Value _) x).trans ?_
  show x ∈ (theSet.mem.assign (Value.str "d") true).keys ↔ _
  rw [GoMap.mem_keys_assign]
  show x = Value.str "d" ∨ x ∈ (ofSlice _).mem.keys ↔ _
  rw [mem_keys_ofSlice]
  simp only [List.mem_cons, List.mem_singleton, List.not_mem_nil, or_false]
  tauto

/-- Both parts of the statement on `RelCompl` applied to the sets of the last test of
`main`. -/
theorem RelCompl_member_iff_witness :
    Built theSetD ∧
    ((theSetD.RelCompl theOtherSet).member (Value.str "d") = true ↔
      theSetD.member (Value.str "d") = true ∧ theOtherSet.member (Value.str "d") = false) ∧
    Equals (theSetD.RelCompl theOtherSet) oneElementSet = true :=
  ⟨Built.append _ (Built.ofSlice _),
    RelCompl_member_iff.1 Value theSetD theOtherSet (Built.append _ (Built.ofSlice _))
      (Value.str "d"),
    RelCompl_member_iff.2 theSetD theOtherSet (Built.append _ (Built.ofSlice _))
      member_theSetD (by decide) (by decide)⟩


/-! ## The power set -/

section PowerClaims

variable {setMember : Type} [DecidableEq setMember] [GoValue setMember]

/-- A sublist of a list without repetitions is that list filtered by membership. -/
theorem sublist_eq_filter {l₁ l : List setMember} (h : l₁.Sublist l) (hl : l.Nodup) :
    l₁ = l.filter (fun x => decide (x ∈ l₁)) := by
  induction h with
  | slnil => rfl
  | cons a h ih =>
    rename_i l₁ l
    rw [List.nodup_cons] at hl
    have ha : a ∉ l₁ := fun hm => hl.1 (h.subset hm)
    rw [List.filter_cons_of_neg (by simpa using ha)]
    exact ih hl.2
  | cons₂ a h ih =>
    rename_i l₁ l
    rw [List.nodup_cons] at hl
    rw [List.filter_cons_of_pos (by simp)]
    congr 1
    rw [ih hl.2]
    apply List.filter_congr
    intro x hx
    have hxa : x ≠ a := fun e => hl.1 (e ▸ hx)
    have hfil : l.filter (fun x => decide (x ∈ l₁)) = l₁ := (ih hl.2).symm
    simp [hxa, hfil]

/-- Two sublists of a list without repetitions with the same elements are equal. -/
theorem sublist_ext {l₁ l₂ l : List setMember} (h₁ : l₁.Sublist l) (h₂ : l₂.Sublist l)
    (hl : l.Nodup) (h : ∀ x, x ∈ l₁ ↔ x ∈ l₂) : l₁ = l₂ := by
  rw [sublist_eq_filter h₁ hl, sublist_eq_filter h₂ hl]
  apply List.filter_congr
  intro x _
  simp [h x]

theorem regular_ofSlice_iff (l : List setMember) :
    (ofSlice l).mem.Regular ↔ ∀ x ∈ l, GoValue.selfEqual x = true :=
  forall_congr' (fun x => by rw [mem_keys_ofSlice])

theorem Equals_ofSlice_iff (l₁ l₂ : List setMember) :
    Equals (ofSlice l₁) (ofSlice l₂) = true ↔
      (∀ x ∈ l₁, GoValue.selfEqual x = true) ∧ (∀ x ∈ l₂, GoValue.selfEqual x = true) ∧
        ∀ x, x ∈ l₁ ↔ x ∈ l₂ := by
  rw [Equals_iff (wf_ofSlice l₁) (wf_ofSlice l₂), regular_ofSlice_iff, regular_ofSlice_iff]
  simp only [mem_keys_ofSlice]

/-- Among the sublists of a list in which no element equal to itself occurs
twice, a sublist without NaN occurs once. -/
theorem pairwise_sublists' (L : List setMember) :
    (L.filter GoValue.selfEqual).Nodup →
    L.sublists'.Pairwise
      (fun l₁ l₂ => l₁ = l₂ → ¬ ∀ x ∈ l₁, GoValue.selfEqual x = true) := by
  induction L with
  | nil => intro _; simp
  | cons a L ih =>
    intro hnd
    have hndL : (L.filter GoValue.selfEqual).Nodup :=
      hnd.sublist ((List.sublist_cons_self a L).filter _)
    rw [List.sublists'_cons, List.pairwise_append, List.pairwise_map]
    refine ⟨ih hndL, ?_, ?_⟩
    · refine (ih hndL).imp ?_
      intro l₁ l₂ h e hall
      exact h (List.cons_injective e) (fun x hx => hall x (List.mem_cons_of_mem _ hx))
    · intro l₁ h₁ l₂ h₂ e hall
      obtain ⟨l, _, rfl⟩ := List.mem_map.1 h₂
      have ha : a ∈ l₁ := e ▸ List.mem_cons_self a l
      have hs : GoValue.selfEqual a = true := hall a ha
      have haL : a ∈ L := (List.mem_sublists'.1 h₁).subset ha
      rw [List.filter_cons_of_pos hs, List.nodup_cons] at hnd
      exact hnd.1 (List.mem_filter.2 ⟨haL, hs⟩)

/-- The length of `PowerSet(s)`: `2 ^ len(s)` while that fits an `int`. -/
theorem PowerSet_length (s : Set setMember) :
    (PowerSet s).length = if s.mem.len ≤ 62 then 2 ^ s.mem.len else 0 := by
  split_ifs with h
  · rw [PowerSet_of_le h, List.length_map, List.length_sublists']
    simp [GoMap.keys, GoMap.len]
  · rw [PowerSet_of_gt (by omega)]
    rfl

/-- No two entries of `PowerSet(s)` hold the same elements. -/
theorem PowerSet_pairwise {s : Set setMember} (hs : s.mem.WF) :
    (PowerSet s).Pairwise (fun a b => Equals a b = false) := by
  by_cases h : s.mem.len ≤ 62
  · rw [PowerSet_of_le h, List.pairwise_map]
    refine List.Pairwise.imp_of_mem ?_ (pairwise_sublists' s.mem.keys hs.nodup)
    intro l₁ l₂ h₁ h₂ hne
    rw [← Bool.not_eq_true, Equals_ofSlice_iff]
    rintro ⟨hr₁, hr₂, hsame⟩
    have hf₁ : l₁.filter GoValue.selfEqual = l₁ := List.filter_eq_self.2 hr₁
    have hf₂ : l₂.filter GoValue.selfEqual = l₂ := List.filter_eq_self.2 hr₂
    have hs₁ : l₁.Sublist (s.mem.keys.filter GoValue.selfEqual) :=
      hf₁ ▸ (List.mem_sublists'.1 h₁).filter _
    have hs₂ : l₂.Sublist (s.mem.keys.filter GoValue.selfEqual) :=
      hf₂ ▸ (List.mem_sublists'.1 h₂).filter _
    exact hne (sublist_ext hs₁ hs₂ hs.nodup hsame) hr₁
  · rw [PowerSet_of_gt (by omega)]
    exact List.Pairwise.nil

/-- The elements of an entry of `PowerSet(s)` are keys of `s`. -/
theorem mem_keys_of_mem_PowerSet {s t : Set setMember} (ht : t ∈ PowerSet s) {x : setMember}
    (hx : x ∈ t.mem.keys) : x ∈ s.mem.keys := by
  by_cases h : s.mem.len ≤ 62
  · rw [PowerSet_of_le h, List.mem_map] at ht
    obtain ⟨l, hl, rfl⟩ := ht
    exact (List.mem_sublists'.1 hl).subset ((mem_keys_ofSlice l x).1 hx)
  · rw [PowerSet_of_gt (by omega)] at ht
    cases ht

/-- Up to 62 elements `PowerSet(s)` has `2 ^ len(s)` entries. -/
theorem PowerSet_length_of_le {s : Set setMember} (h : s.mem.len ≤ 62) :
    (PowerSet s).length = 2 ^ s.mem.len := by
  rw [PowerSet_length, if_pos h]

/-- Up to 62 elements every subset of `s` is `Equal` to an entry of `PowerSet(s)`. -/
theorem PowerSet_complete_of_le {s t : Set setMember} (hs : s.mem.WF) (ht : t.mem.WF)
    (htr : t.mem.Regular)
    (h : s.mem.len ≤ 62) (hsub : ∀ x, t.member x = true → s.member x = true) :
    ∃ e ∈ PowerSet s, Equals e t = true := by
  refine ⟨ofSlice (s.mem.keys.filter (fun x => decide (x ∈ t.mem.keys))), ?_, ?_⟩
  · rw [PowerSet_of_le h]
    exact List.mem_map_of_mem _ (List.mem_sublists'.2 (List.filter_sublist _))
  · have hmem : ∀ x, x ∈ (ofSlice (s.mem.keys.filter
        (fun x => decide (x ∈ t.mem.keys)))).mem.keys ↔ x ∈ t.mem.keys := by
      intro x
      rw [mem_keys_ofSlice, List.mem_filter]
      constructor
      · intro hx
        simpa using hx.2
      · intro hx
        refine ⟨?_, by simpa using hx⟩
        exact ((member_iff hs x).1 (hsub x ((member_iff ht x).2 ⟨hx, htr x hx⟩))).1
    rw [Equals_iff (wf_ofSlice _) ht]
    exact ⟨fun x hx => htr x ((hmem x).1 hx), htr, hmem⟩

theorem foldl_range_getD {α β : Type} (f : β → α → β) (d : α) (l : List α) : ∀ init : β,
    (List.range l.length).foldl (fun acc i => f acc (l.getD i d)) init = l.foldl f init := by
  induction l with
  | nil => intro init; rfl
  | cons a l ih =>
    intro init
    rw [List.length_cons, List.range_succ_eq_map, List.foldl_cons, List.foldl_map]
    simp only [List.getD_cons_succ, List.getD_cons_zero, List.foldl_cons]
    exact ih (f init a)

theorem allElemsInPowSet_eq (L : List (Set setMember)) :
    allElemsInPowSet L = L.foldl (fun all e => e.mem.keys.foldl Set.Append all) NewSet := by
  unfold allElemsInPowSet
  exact foldl_range_getD (fun all (e : Set setMember) => e.mem.keys.foldl Set.Append all)
    NewSet L NewSet

theorem mem_keys_foldl_Append (l : List setMember) (r : Set setMember) (x : setMember) :
    x ∈ (l.foldl Set.Append r).mem.keys ↔ x ∈ r.mem.keys ∨ x ∈ l := by
  rw [mem_keys_foldl (fun _ => True) Set.Append (fun r k => by simp [Set.Append])]
  simp

theorem wf_foldl_Append (l : List setMember) (r : Set setMember) (h : r.mem.WF) :
    (l.foldl Set.Append r).mem.WF :=
  wf_foldl (fun _ => True) Set.Append (fun r k => by simp [Set.Append]) l r h

theorem mem_keys_collect (L : List (Set setMember)) : ∀ (r : Set setMember) (x : setMember),
    x ∈ (L.foldl (fun all e => e.mem.keys.foldl Set.Append all) r).mem.keys ↔
      x ∈ r.mem.keys ∨ ∃ e ∈ L, x ∈ e.mem.keys := by
  induction L with
  | nil => intro r x; simp
  | cons e L ih =>
    intro r x
    rw [List.foldl_cons, ih, mem_keys_foldl_Append]
    simp only [List.mem_cons, exists_eq_or_imp]
    tauto

theorem wf_collect (L : List (Set setMember)) : ∀ r : Set setMember, r.mem.WF →
    (L.foldl (fun all e => e.mem.keys.foldl Set.Append all) r).mem.WF := by
  induction L with
  | nil => intro r h; exact h
  | cons e L ih => intro r h; exact ih _ (wf_foldl_Append _ _ h)

theorem mem_keys_allElemsInPowSet (L : List (Set setMember)) (x : setMember) :
    x ∈ (allElemsInPowSet L).mem.keys ↔ ∃ e ∈ L, x ∈ e.mem.keys := by
  rw [allElemsInPowSet_eq, mem_keys_collect]
  simp [NewSet, GoMap.make, GoMap.keys]

theorem wf_allElemsInPowSet (L : List (Set setMember)) : (allElemsInPowSet L).mem.WF := by
  rw [allElemsInPowSet_eq]
  exact wf_collect L _ wf_NewSet

/-- Up to 62 elements the elements collected from `PowerSet(s)` are those of `s`. -/
theorem allElemsInPowSet_PowerSet_of_le {s : Set setMember} (hs : s.mem.WF)
    (hr : s.mem.Regular)
    (h : s.mem.len ≤ 62) : Equals (allElemsInPowSet (PowerSet s)) s = true := by
  have hreg : (allElemsInPowSet (PowerSet s)).mem.Regular := by
    intro x hx
    obtain ⟨e, he, hxe⟩ := (mem_keys_allElemsInPowSet _ x).1 hx
    exact hr x (mem_keys_of_mem_PowerSet he hxe)
  rw [Equals_iff_keys (wf_allElemsInPowSet _) hs hreg hr]
  intro x
  rw [mem_keys_allElemsInPowSet]
  constructor
  · rintro ⟨e, he, hx⟩
    exact mem_keys_of_mem_PowerSet he hx
  · intro hx
    refine ⟨ofSlice s.mem.keys, ?_, (mem_keys_ofSlice _ x).2 hx⟩
    rw [PowerSet_of_le h]
    exact List.mem_map_of_mem _ (List.mem_sublists'.2 (List.Sublist.refl _))

theorem len_ofSlice_of_nodup {l : List setMember} (hl : l.Nodup)
    (hr : ∀ x ∈ l, GoValue.selfEqual x = true) :
    (ofSlice l).mem.len = l.length := by
  have hp : (ofSlice l).mem.keys.Perm l :=
    (List.perm_ext_iff_of_nodup
      ((wf_ofSlice l).nodup_keys ((regular_ofSlice_iff l).2 hr)) hl).2 (mem_keys_ofSlice l)
  simpa [GoMap.keys, GoMap.len] using hp.length_eq

end PowerClaims

theorem len_sixtyThree : sixtyThree.mem.len = 63 := by
  unfold sixtyThree
  rw [len_ofSlice_of_nodup _ (fun _ _ => rfl)]
  · simp
  · exact List.Nodup.map (fun a b h => by simpa using h) (List.nodup_range 63)

theorem PowerSet_sixtyThree : PowerSet sixtyThree = [] :=
  PowerSet_of_gt (by rw [len_sixtyThree]; decide)


theorem built_sixtyThree : Built sixtyThree := Built.ofSlice _

theorem member_sixtyThree_zero : sixtyThree.member (Value.int 0) = true := by
  unfold sixtyThree
  rw [member_iff_of_regular (wf_ofSlice _) (regular_Value _), mem_keys_ofSlice]
  exact List.mem_map.2 ⟨0, List.mem_range.2 (by decide), rfl⟩

/-- C6, evaluated at a set of 63 elements: `pow(2, 63)` overflows the `int`, both
loops of `subsets` are skipped and `PowerSet` returns a slice of length `0`, not
of length `2 ^ 63`. -/
theorem PowerSet_length_sixtyThree :
    Built sixtyThree ∧ sixtyThree.mem.len = 63 ∧ pow 2 63 = -2 ^ 63 ∧
      (PowerSet sixtyThree).length = 0 ∧
      (PowerSet sixtyThree).length ≠ 2 ^ sixtyThree.mem.len := by
  refine ⟨built_sixtyThree, len_sixtyThree, by rfl, ?_, ?_⟩
  · rw [PowerSet_sixtyThree]
    rfl
  · rw [PowerSet_sixtyThree, len_sixtyThree]
    decide

/-- C7, evaluated at a set of 63 elements: the empty set and the set itself are
subsets of it, and no entry of `PowerSet` is `Equal` to either, since `PowerSet`
has no entry. -/
theorem PowerSet_incomplete_sixtyThree :
    Built sixtyThree ∧
      (∀ x, (NewSet : Set Value).member x = true → sixtyThree.member x = true) ∧
      (¬ ∃ e ∈ PowerSet sixtyThree, Equals e (NewSet : Set Value) = true) ∧
      (¬ ∃ e ∈ PowerSet sixtyThree, Equals e sixtyThree = true) := by
  refine ⟨built_sixtyThree, ?_, ?_, ?_⟩
  · intro x hx
    cases hx
  · rw [PowerSet_sixtyThree]
    simp
  · rw [PowerSet_sixtyThree]
    simp

section PowerSetConfirmed

variable {setMember : Type} [DecidableEq setMember] [GoValue setMember]

/-- C8: for a set `s` built through the public operations and two distinct
indices `i` and `j` into `PowerSet(s)`, `Equals(PowerSet(s)[i], PowerSet(s)[j])`
is false: no subset is produced twice. -/
theorem PowerSet_no_duplicates {s : Set setMember} (hs : Built s) (i j : Nat)
    (hi : i < (PowerSet s).length) (hj : j < (PowerSet s).length) (hij : i ≠ j) :
    Equals (PowerSet s)[i] (PowerSet s)[j] = false := by
  have hp := List.pairwise_iff_getElem.1 (PowerSet_pairwise hs.wf)
  rcases Nat.lt_or_gt_of_ne hij with h | h
  · exact hp i j hi hj h
  · have hji := hp j i hj hi h
    have wi : (PowerSet s)[i].mem.WF := wf_of_mem_PowerSet (List.getElem_mem _)
    have wj : (PowerSet s)[j].mem.WF := wf_of_mem_PowerSet (List.getElem_mem _)
    rw [← Bool.not_eq_true] at hji ⊢
    intro hE
    apply hji
    obtain ⟨hri, hrj, hm⟩ := (Equals_iff_regular_member wi wj).1 hE
    exact (Equals_iff_regular_member wj wi).2 ⟨hrj, hri, fun x => (hm x).symm⟩

/-- The entries of index 1 and 2 of the power set of a set of two elements differ. -/
theorem PowerSet_no_duplicates_witness :
    Built twoElementSet ∧
    ∃ (hi : 1 < (PowerSet twoElementSet).length) (hj : 2 < (PowerSet twoElementSet).length),
      1 ≠ 2 ∧ Equals (PowerSet twoElementSet)[1] (PowerSet twoElementSet)[2] = false :=
  ⟨Built.ofSlice _, by decide, by decide, by decide,
    PowerSet_no_duplicates (Built.ofSlice _) 1 2 (by decide) (by decide) (by decide)⟩

/-- C9: for a set `s` built through the public operations, every entry of
`PowerSet(s)` contains only elements that are members of `s`. -/
theorem PowerSet_sound {s : Set setMember} (hs : Built s) {t : Set setMember}
    (ht : t ∈ PowerSet s) (x : setMember) (hx : t.member x = true) : s.member x = true := by
  rw [member_iff hs.wf]
  have hx' := (member_iff (wf_of_mem_PowerSet ht) x).1 hx
  exact ⟨mem_keys_of_mem_PowerSet ht hx'.1, hx'.2⟩

/-- Soundness applied to the entry `{"a"}` of the power set of `{1, "a"}`. -/
theorem PowerSet_sound_witness :
    Built twoElementSet ∧ ofSlice [Value.str "a"] ∈ PowerSet twoElementSet ∧
      (ofSlice [Value.str "a"]).member (Value.str "a") = true ∧
      twoElementSet.member (Value.str "a") = true :=
  ⟨Built.ofSlice _, by decide, by decide,
    PowerSet_sound (Built.ofSlice _) (t := ofSlice [Value.str "a"]) (by decide)
      (Value.str "a") (by decide)⟩

end PowerSetConfirmed

/-- C10, evaluated at a set of 63 elements: `PowerSet` returns no entry, the set
collected from its entries is empty and is not `Equal` to the set; the member
`0` of the set is in no entry. -/
theorem allElemsInPowSet_sixtyThree :
    Built sixtyThree ∧
      Equals (allElemsInPowSet (PowerSet sixtyThree)) sixtyThree = false ∧
      sixtyThree.member (Value.int 0) = true ∧
      (allElemsInPowSet (PowerSet sixtyThree)).member (Value.int 0) = false := by
  refine ⟨built_sixtyThree, ?_, member_sixtyThree_zero, ?_⟩
  · rw [← Bool.not_eq_true, Equals_eq_true_iff, PowerSet_sixtyThree, len_sixtyThree]
    rintro ⟨h, _⟩
    cases h
  · rw [PowerSet_sixtyThree]
    rfl

/-! ## `Append` and `Remove` -/

namespace GoMap

variable {κ : Type} [DecidableEq κ] [GoValue κ]

theorem index_assign_self (m : GoMap κ) {k : κ} (v : Bool) (h : GoValue.selfEqual k = true) :
    (m.assign k v).index k = v := by
  induction m with
  | nil => simp [assign, index, goEq_self h]
  | cons e m ih =>
    obtain ⟨k', v'⟩ := e
    by_cases hk : goEq k' k = true
    · simp [assign, index, hk]
    · simp [assign, index, hk, ih]

theorem index_assign_of_ne (m : GoMap κ) {k y : κ} (v : Bool) (h : y ≠ k) :
    (m.assign k v).index y = m.index y := by
  induction m with
  | nil => simp [assign, index, goEq_of_ne (Ne.symm h)]
  | cons e m ih =>
    obtain ⟨k', v'⟩ := e
    by_cases hk : goEq k' k = true
    · obtain ⟨rfl, _⟩ := (goEq_eq_true_iff k' k).1 hk
      simp [assign, index, hk, goEq_of_ne (Ne.symm h)]
    · by_cases hy : goEq k' y = true
      · simp [assign, index, hk, hy]
      · simp [assign, index, hk, hy, ih]

/-- Storing a value a second time under a key that is equal to itself changes
nothing. -/
theorem assign_assign (m : GoMap κ) {k : κ} (v : Bool) (h : GoValue.selfEqual k = true) :
    (m.assign k v).assign k v = m.assign k v := by
  induction m with
  | nil => simp [assign, goEq_self h]
  | cons e m ih =>
    obtain ⟨k', v'⟩ := e
    by_cases hk : goEq k' k = true
    · simp [assign, hk]
    · simp [assign, hk, ih]

/-- Storing `true` under a key whose lookup is `true` changes nothing. -/
theorem assign_of_index (m : GoMap κ) (k : κ) (h : m.index k = true) :
    m.assign k true = m := by
  induction m with
  | nil => simp [index] at h
  | cons e m ih =>
    obtain ⟨k', v'⟩ := e
    by_cases hk : goEq k' k = true
    · simp only [index, if_pos hk] at h
      simp [assign, hk, h]
    · simp only [index, if_neg hk] at h
      simp [assign, hk, ih h]

theorem index_delete_of_ne (m : GoMap κ) {k y : κ} (h : y ≠ k) :
    (m.delete k).index y = m.index y := by
  induction m with
  | nil => simp [delete, index]
  | cons e m ih =>
    obtain ⟨k', v'⟩ := e
    by_cases hk : goEq k' k = true
    · obtain ⟨rfl, _⟩ := (goEq_eq_true_iff k' k).1 hk
      simp [delete, index, hk, goEq_of_ne (Ne.symm h)]
    · by_cases hy : goEq k' y = true
      · simp [delete, index, hk, hy]
      · simp [delete, index, hk, hy, ih]

theorem delete_of_not_mem (m : GoMap κ) (k : κ) (h : k ∉ m.keys) : m.delete k = m := by
  induction m with
  | nil => rfl
  | cons e m ih =>
    obtain ⟨k', v'⟩ := e
    rw [keys_cons, List.mem_cons, not_or] at h
    have hk : goEq k' k = false := goEq_of_ne (fun e => h.1 e.symm)
    simp [delete, hk, ih h.2]

theorem index_of_not_mem (m : GoMap κ) (k : κ) (h : k ∉ m.keys) : m.index k = false := by
  induction m with
  | nil => rfl
  | cons e m ih =>
    obtain ⟨k', v'⟩ := e
    rw [keys_cons, List.mem_cons, not_or] at h
    have hk : goEq k' k = false := goEq_of_ne (fun e => h.1 e.symm)
    simp [index, hk, ih h.2]

theorem index_delete_self {m : GoMap κ} (h : m.WF) (k : κ) : (m.delete k).index k = false := by
  by_cases hs : GoValue.selfEqual k = true
  · have hnd := h.nodup
    clear h
    induction m with
    | nil => rfl
    | cons e m ih =>
      obtain ⟨k', v'⟩ := e
      rw [keys_cons] at hnd
      by_cases hk : goEq k' k = true
      · obtain ⟨rfl, _⟩ := (goEq_eq_true_iff k' k).1 hk
        rw [List.filter_cons_of_pos hs, List.nodup_cons] at hnd
        simp only [delete, if_pos hk]
        exact index_of_not_mem m k' (fun hm => hnd.1 (List.mem_filter.2 ⟨hm, hs⟩))
      · simp only [delete, if_neg hk, index]
        exact ih (hnd.sublist ((List.sublist_cons_self _ _).filter _))
  · exact index_of_not_selfEqual _ (by simpa using hs)

/-- A `delete` of a key whose lookup is `false` changes nothing. -/
theorem delete_of_index {m : GoMap κ} (h : ∀ e ∈ m, e.2 = true) {k : κ}
    (hk : m.index k = false) : m.delete k = m := by
  by_cases hs : GoValue.selfEqual k = true
  · apply delete_of_not_mem
    intro hm
    exact (index_eq_false_iff h k).1 hk ⟨hm, hs⟩
  · exact delete_of_not_selfEqual m (by simpa using hs)

end GoMap

section AppendRemove

variable {setMember : Type} [DecidableEq setMember] [GoValue setMember]

theorem regular_Append {s : Set setMember} (hr : s.mem.Regular) {x : setMember}
    (hx : GoValue.selfEqual x = true) : (s.Append x).mem.Regular := by
  intro k hk
  rcases (GoMap.mem_keys_assign s.mem x true k).1 hk with rfl | h
  · exact hx
  · exact hr k h

/-- C11, as amended: `Append` is idempotent at an element `x` that is equal to
itself.  For a set `s` built through the public operations, the state after
`Append(x); Append(x)` is the state after one `Append(x)`, and is `Equal` to it
when `s` holds no NaN; and when `x` is already a member, `Append(x)` leaves the
membership of every element and the cardinality unchanged. -/
theorem Append_idempotent {s : Set setMember} (hs : Built s) (x : setMember)
    (hx : GoValue.selfEqual x = true) :
    (s.Append x).Append x = s.Append x ∧
    (s.mem.Regular → Equals ((s.Append x).Append x) (s.Append x) = true) ∧
    (s.member x = true →
      (∀ y, (s.Append x).member y = s.member y) ∧ (s.Append x).mem.len = s.mem.len) := by
  have h1 : (s.Append x).Append x = s.Append x := by
    simp [Set.Append, GoMap.assign_assign _ _ hx]
  refine ⟨h1, ?_, ?_⟩
  · intro hr
    rw [h1]
    exact (Equals_iff_member (wf_Append hs.wf x) (wf_Append hs.wf x)
      (regular_Append hr hx) (regular_Append hr hx)).2 (fun _ => rfl)
  · intro hm
    have h2 : s.Append x = s := by
      cases s with
      | mk m => simp only [Set.Append]; rw [GoMap.assign_of_index m x hm]
    rw [h2]
    exact ⟨fun _ => rfl, rfl⟩

/-- Idempotence of `Append` applied to `theSet` and its member `1`. -/
theorem Append_idempotent_witness :
    Built theSet ∧
    ((theSet.Append (Value.int 1)).Append (Value.int 1) = theSet.Append (Value.int 1) ∧
    Equals ((theSet.Append (Value.int 1)).Append (Value.int 1)) (theSet.Append (Value.int 1))
      = true) :=
  ⟨Built.ofSlice _, (Append_idempotent (Built.ofSlice _) (Value.int 1) rfl).1,
    (Append_idempotent (s := theSet) (Built.ofSlice _) (Value.int 1) rfl).2.1
      (regular_Value _)⟩

/-- C11, as stated, fails at `s = NewSet()` and `x = NaN`: after
`Append(x); Append(x)` the map has two entries, after one `Append(x)` it has
one, and the two states are not `Equal`. -/
theorem Append_idempotent_counterexample :
    Built (NewSet : Set Dynamic) ∧
    (((NewSet : Set Dynamic).Append Dynamic.nan).Append Dynamic.nan).mem.len = 2 ∧
    ((NewSet : Set Dynamic).Append Dynamic.nan).mem.len = 1 ∧
    ((NewSet : Set Dynamic).Append Dynamic.nan).Append Dynamic.nan ≠
      (NewSet : Set Dynamic).Append Dynamic.nan ∧
    Equals (((NewSet : Set Dynamic).Append Dynamic.nan).Append Dynamic.nan)
      ((NewSet : Set Dynamic).Append Dynamic.nan) = false :=
  ⟨Built.newSet, by decide, by decide, by decide, by decide⟩

/-- C12, as amended: equality is insensitive to insertion order and to repeated
insertions of elements that are equal to themselves.  When two sequences `xs`
and `ys` of such elements hold the same values, the sets obtained from
`NewSet()` by appending them in order are `Equal`, in whatever order their maps
are visited. -/
theorem Equals_insertion_order (xs ys : List setMember) (h : ∀ x, x ∈ xs ↔ x ∈ ys)
    (hr : ∀ x ∈ xs, GoValue.selfEqual x = true) :
    Equals (ofSlice xs) (ofSlice ys) = true ∧
    ∀ a b : Set setMember, (ofSlice xs).mem.Perm a.mem → (ofSlice ys).mem.Perm b.mem →
      Equals a b = true := by
  have hrx : (ofSlice xs).mem.Regular := (regular_ofSlice_iff xs).2 hr
  have hry : (ofSlice ys).mem.Regular :=
    (regular_ofSlice_iff ys).2 (fun x hx => hr x ((h x).2 hx))
  have key : ∀ a b : Set setMember, (ofSlice xs).mem.Perm a.mem →
      (ofSlice ys).mem.Perm b.mem → Equals a b = true := by
    intro a b ha hb
    rw [Equals_iff_keys ((wf_ofSlice xs).perm ha) ((wf_ofSlice ys).perm hb)
      (GoMap.regular_of_perm hrx ha) (GoMap.regular_of_perm hry hb)]
    intro x
    have hka : x ∈ (ofSlice xs).mem.keys ↔ x ∈ a.mem.keys := (ha.map Prod.fst).mem_iff
    have hkb : x ∈ (ofSlice ys).mem.keys ↔ x ∈ b.mem.keys := (hb.map Prod.fst).mem_iff
    rw [← hka, ← hkb]
    exact ((mem_keys_ofSlice xs x).trans (h x)).trans (mem_keys_ofSlice ys x).symm
  exact ⟨key _ _ (List.Perm.refl _) (List.Perm.refl _), key⟩

/-- Order insensitivity applied to `1, "a", 2, 1` and `2, "a", "a", 1`. -/
theorem Equals_insertion_order_witness :
    (∀ x, x ∈ [Value.int 1, Value.str "a", Value.int 2, Value.int 1] ↔
      x ∈ [Value.int 2, Value.str "a", Value.str "a", Value.int 1]) ∧
    (Equals (ofSlice [Value.int 1, Value.str "a", Value.int 2, Value.int 1])
        (ofSlice [Value.int 2, Value.str "a", Value.str "a", Value.int 1]) = true ∧
      ∀ a b : Set Value,
        (ofSlice [Value.int 1, Value.str "a", Value.int 2, Value.int 1]).mem.Perm a.mem →
        (ofSlice [Value.int 2, Value.str "a", Value.str "a", Value.int 1]).mem.Perm b.mem →
        Equals a b = true) :=
  ⟨fun x => by simp only [List.mem_cons, List.mem_singleton, List.not_mem_nil]; tauto,
    Equals_insertion_order _ _
      (fun x => by simp only [List.mem_cons, List.mem_singleton, List.not_mem_nil]; tauto)
      (fun _ _ => rfl)⟩

/-- C12, as stated, fails at the sequences `NaN, NaN` and `NaN`, which hold the
same values: the sets appended from them are not `Equal`; nor is the set
appended from `NaN` `Equal` to a second set appended from `NaN`. -/
theorem Equals_insertion_order_counterexample :
    (∀ x, x ∈ [Dynamic.nan, Dynamic.nan] ↔ x ∈ [Dynamic.nan]) ∧
    Equals (ofSlice [Dynamic.nan, Dynamic.nan]) (ofSlice [Dynamic.nan]) = false ∧
    Equals (ofSlice [Dynamic.nan]) (ofSlice [Dynamic.nan]) = false :=
  ⟨fun x => by simp, by decide, by decide⟩

/-- C13, as amended: for a set `s` built through the public operations, after
`s.Remove(x)` the element `x` is not a member and the membership of every other
element is unchanged; when `x` was not a member the state of `s` is unchanged,
and is `Equal` to what it was when `s` holds no NaN; and for such an `s` and an
`x` equal to itself that was not a member, `Append(x)` followed by `Remove(x)`
gives a set `Equal` to the original. -/
theorem Remove_spec {s : Set setMember} (hs : Built s) (x : setMember) :
    (s.Remove x).member x = false ∧
    (∀ y, y ≠ x → (s.Remove x).member y = s.member y) ∧
    (s.member x = false → s.Remove x = s) ∧
    (s.mem.Regular → s.member x = false → Equals (s.Remove x) s = true) ∧
    (s.mem.Regular → GoValue.selfEqual x = true → s.member x = false →
      Equals ((s.Append x).Remove x) s = true) := by
  have hno : s.member x = false → s.Remove x = s := by
    intro hx
    cases s with
    | mk m => simp only [Set.Remove]; rw [GoMap.delete_of_index hs.wf.allTrue hx]
  refine ⟨GoMap.index_delete_self hs.wf x, fun y hy => GoMap.index_delete_of_ne s.mem hy,
    hno, ?_, ?_⟩
  · intro hr hx
    rw [hno hx]
    exact (Equals_iff_member hs.wf hs.wf hr hr).2 (fun _ => rfl)
  · intro hr hsx hx
    have hra : (s.Append x).mem.Regular := regular_Append hr hsx
    have hrr : ((s.Append x).Remove x).mem.Regular := fun k hk =>
      hra k (((GoMap.delete_sublist _ x).map Prod.fst).subset hk)
    rw [Equals_iff_member (wf_Remove (wf_Append hs.wf x) x) hs.wf hrr hr]
    intro y
    by_cases hy : y = x
    · subst hy
      exact (GoMap.index_delete_self (wf_Append hs.wf y) y).trans hx.symm
    · exact (GoMap.index_delete_of_ne _ hy).trans (GoMap.index_assign_of_ne s.mem true hy)

/-- The statement on `Remove` applied to `theSet` and the absent element `"k"`. -/
theorem Remove_spec_witness :
    Built theSet ∧
    ((theSet.Remove (Value.str "k")).member (Value.str "k") = false ∧
    Equals (theSet.Remove (Value.str "k")) theSet = true ∧
    Equals ((theSet.Append (Value.str "k")).Remove (Value.str "k")) theSet = true) :=
  ⟨Built.ofSlice _, (Remove_spec (s := theSet) (Built.ofSlice _) (Value.str "k")).1,
    (Remove_spec (s := theSet) (Built.ofSlice _) (Value.str "k")).2.2.2.1
      (regular_Value _) (by decide),
    (Remove_spec (s := theSet) (Built.ofSlice _) (Value.str "k")).2.2.2.2
      (regular_Value _) rfl (by decide)⟩

/-- C13, as stated, fails at `s = NewSet()` and `x = NaN`: `x` is not a member,
and `Append(x)` followed by `Remove(x)` leaves one entry, a set that is not
`Equal` to the original; and at `s = {NaN}` and `x = 1`: `x` is not a member and
`s` after `Remove(x)` is not `Equal` to what it was. -/
theorem Remove_spec_counterexample :
    Built (NewSet : Set Dynamic) ∧
    (NewSet : Set Dynamic).member Dynamic.nan = false ∧
    (((NewSet : Set Dynamic).Append Dynamic.nan).Remove Dynamic.nan).mem.len = 1 ∧
    Equals (((NewSet : Set Dynamic).Append Dynamic.nan).Remove Dynamic.nan) NewSet = false ∧
    Built nanSet ∧ nanSet.member (Dynamic.int 1) = false ∧
    Equals (nanSet.Remove (Dynamic.int 1)) nanSet = false :=
  ⟨Built.newSet, by decide, by decide, by decide, built_nanSet, by decide, by decide⟩

theorem Store.maps_Append_self (σ : Store setMember) (t : Nat) (x : setMember) :
    (σ.Append t x).maps t = (σ.maps t).Append x := by
  simp [Store.Append]

theorem Store.maps_Append_of_ne (σ : Store setMember) {s t : Nat} (x : setMember)
    (h : s ≠ t) : (σ.Append t x).maps s = σ.maps s := by
  simp [Store.Append, Function.update_noteq h]

/-- C14, as amended: for a set `t` built through the public operations, after
`t.Append(x)` an element `x` that is equal to itself is a member and the
membership of every other element is unchanged; so a set `s` that does not
share its map with `t` and was `Equal` to `t` is not `Equal` to it once an `x`
that was not a member of `t` is appended to `t`. -/
theorem Append_spec (σ : Store setMember) (s t : Nat) (hs : Built (σ.maps s))
    (ht : Built (σ.maps t)) (x : setMember) :
    (GoValue.selfEqual x = true → ((σ.Append t x).maps t).member x = true) ∧
    (∀ y, y ≠ x → ((σ.Append t x).maps t).member y = (σ.maps t).member y) ∧
    (s ≠ t → σ.Equals s t = true → (σ.maps t).member x = false →
      (σ.Append t x).Equals s t = false) := by
  rw [Store.maps_Append_self]
  refine ⟨fun hx => GoMap.index_assign_self (σ.maps t).mem true hx,
    fun y hy => GoMap.index_assign_of_ne (σ.maps t).mem true hy, ?_⟩
  intro hne hE hx
  unfold Store.Equals at hE ⊢
  rw [Store.maps_Append_self, Store.maps_Append_of_ne σ x hne, ← Bool.not_eq_true,
    Equals_iff_regular_member hs.wf (wf_Append ht.wf x)]
  rintro ⟨_, hrt, h⟩
  have h1 : (σ.maps s).member x = (σ.maps t).member x :=
    ((Equals_iff_regular_member hs.wf ht.wf).1 hE).2.2 x
  have hsx : GoValue.selfEqual x = true :=
    hrt x ((GoMap.mem_keys_assign _ x true x).2 (Or.inl rfl))
  have h2 : (σ.maps s).member x = true :=
    (h x).trans (GoMap.index_assign_self (σ.maps t).mem true hsx)
  rw [h1, hx] at h2
  cases h2

/-- The scenario of `main`: `s` and `t` hold two maps with `1, 2, 3, "a", "b"`, and
`x = "c"`. -/
theorem Append_spec_witness :
    Built (theStore.maps 0) ∧ Built (theStore.maps 1) ∧ (0 : Nat) ≠ 1 ∧
    theStore.Equals 0 1 = true ∧ (theStore.maps 1).member (Value.str "c") = false ∧
    ((theStore.Append 1 (Value.str "c")).maps 1).member (Value.str "c") = true ∧
    (theStore.Append 1 (Value.str "c")).Equals 0 1 = false :=
  ⟨Built.ofSlice _, Built.ofSlice _, by decide, by decide, by decide,
    (Append_spec theStore 0 1 (Built.ofSlice _) (Built.ofSlice _) (Value.str "c")).1 rfl,
    (Append_spec theStore 0 1 (Built.ofSlice _) (Built.ofSlice _) (Value.str "c")).2.2
      (by decide) (by decide) (by decide)⟩

/-- C14, as stated, fails at `x = NaN`, which is not a member of `t` after
`t.Append(x)`, and at a variable `s` that holds the map of `t` (`s := t`):
`Equals(s, t)` is true before and after `t.Append("c")`. -/
theorem Append_spec_counterexample :
    Built (NewSet : Set Dynamic) ∧
    ((NewSet : Set Dynamic).Append Dynamic.nan).member Dynamic.nan = false ∧
    Built (theStore.maps 0) ∧ theStore.Equals 0 0 = true ∧
    (theStore.maps 0).member (Value.str "c") = false ∧
    ((theStore.Append 0 (Value.str "c")).maps 0).member (Value.str "c") = true ∧
    (theStore.Append 0 (Value.str "c")).Equals 0 0 = true :=
  ⟨Built.newSet, by decide, Built.ofSlice _, by decide, by decide, by decide, by decide⟩

end AppendRemove

/-! ## Identities of the binary operations -/

section Identities

variable {setMember : Type} [DecidableEq setMember] [GoValue setMember]

theorem keys_NewSet : (NewSet : Set setMember).mem.keys = [] := rfl

theorem index_NewSet (x : setMember) : (NewSet : Set setMember).mem.index x = false := rfl

theorem regular_Union {a b : Set setMember} (ha : a.mem.Regular) (hb : b.mem.Regular) :
    (a.Union b).mem.Regular := fun k hk =>
  ((mem_keys_Union a b k).1 hk).elim (ha k) (hb k)

theorem regular_Intersection {a : Set setMember} (ha : a.mem.Regular) (b : Set setMember) :
    (a.Intersection b).mem.Regular := fun k hk =>
  ha k ((mem_keys_Intersection a b k).1 hk).1

theorem regular_RelCompl {a : Set setMember} (ha : a.mem.Regular) (b : Set setMember) :
    (a.RelCompl b).mem.Regular := fun k hk =>
  ha k ((mem_keys_RelCompl a b k).1 hk).1

/-- C15, as amended: the identities of the empty set.  For a set `a` built
through the public operations and `e = NewSet()`, `Equals(a.Intersection(e), e)`
and `Equals(e.RelCompl(a), e)` are true, and `Equals(a.Union(e), a)` and
`Equals(a.RelCompl(e), a)` are true when `a` holds no element that is not equal
to itself (no NaN). -/
theorem empty_set_identities {a : Set setMember} (ha : Built a) :
    (a.mem.Regular → Equals (a.Union NewSet) a = true) ∧
    Equals (a.Intersection NewSet) NewSet = true ∧
    (a.mem.Regular → Equals (a.RelCompl NewSet) a = true) ∧
    Equals ((NewSet : Set setMember).RelCompl a) NewSet = true := by
  refine ⟨?_, ?_, ?_, ?_⟩
  · intro hr
    rw [Equals_iff_keys (wf_Union _ _) ha.wf (regular_Union hr regular_NewSet) hr]
    intro x
    rw [mem_keys_Union, keys_NewSet]
    simp
  · rw [Equals_iff (wf_Intersection _ _) wf_NewSet]
    have hk : ∀ x, x ∈ (a.Intersection NewSet).mem.keys ↔ x ∈ (NewSet : Set setMember).mem.keys := by
      intro x
      rw [mem_keys_Intersection, keys_NewSet, index_NewSet]
      simp
    exact ⟨fun x hx => absurd ((hk x).1 hx) (List.not_mem_nil x), regular_NewSet, hk⟩
  · intro hr
    rw [Equals_iff_keys (wf_RelCompl _ _) ha.wf (regular_RelCompl hr _) hr]
    intro x
    rw [mem_keys_RelCompl, index_NewSet]
    simp
  · rw [Equals_iff_keys (wf_RelCompl _ _) wf_NewSet (regular_RelCompl regular_NewSet _)
      regular_NewSet]
    intro x
    rw [mem_keys_RelCompl, keys_NewSet]
    simp

/-- The identities of the empty set applied to `theSet`. -/
theorem empty_set_identities_witness :
    Built theSet ∧
    (Equals (theSet.Union NewSet) theSet = true ∧
    Equals (theSet.Intersection NewSet) NewSet = true ∧
    Equals (theSet.RelCompl NewSet) theSet = true ∧
    Equals ((NewSet : Set Value).RelCompl theSet) NewSet = true) :=
  ⟨Built.ofSlice _,
    (empty_set_identities (a := theSet) (Built.ofSlice _)).1 (regular_Value _),
    (empty_set_identities (a := theSet) (Built.ofSlice _)).2.1,
    (empty_set_identities (a := theSet) (Built.ofSlice _)).2.2.1 (regular_Value _),
    (empty_set_identities (a := theSet) (Built.ofSlice _)).2.2.2⟩

/-- C15, as stated, fails at `a = {NaN}`: `Equals(a.Union(e), a)` and
`Equals(a.RelCompl(e), a)` are false. -/
theorem empty_set_identities_counterexample :
    Built nanSet ∧ Equals (nanSet.Union NewSet) nanSet = false ∧
    Equals (nanSet.RelCompl NewSet) nanSet = false :=
  ⟨built_nanSet, by decide, by decide⟩

/-- C16, as amended: the identities of a subset.  For sets `a` and `b` built
through the public operations with every element of `a` a member of `b`, where
`a` holds no element that is not equal to itself (no NaN),
`Equals(a.Intersection(b), a)` and `Equals(a.RelCompl(b), NewSet())` are true,
and `Equals(a.Union(b), b)` is true when `b` holds no such element either; in
particular `Equals(a.Union(a), a)` and `Equals(a.Intersection(a), a)`. -/
theorem subset_identities {a b : Set setMember} (ha : Built a) (hb : Built b)
    (hra : a.mem.Regular)
    (hsub : ∀ x, a.member x = true → b.member x = true) :
    Equals (a.Intersection b) a = true ∧
    (b.mem.Regular → Equals (a.Union b) b = true) ∧
    Equals (a.RelCompl b) NewSet = true ∧
    Equals (a.Union a) a = true ∧
    Equals (a.Intersection a) a = true := by
  have hsub' : ∀ x, x ∈ a.mem.keys → x ∈ b.mem.keys := fun x hx =>
    ((member_iff hb.wf x).1 (hsub x ((member_iff ha.wf x).2 ⟨hx, hra x hx⟩))).1
  refine ⟨?_, ?_, ?_, ?_, ?_⟩
  · rw [Equals_iff_keys (wf_Intersection _ _) ha.wf (regular_Intersection hra _) hra]
    intro x
    rw [mem_keys_Intersection, GoMap.index_eq_true_iff hb.wf.allTrue]
    exact ⟨fun h => h.1, fun h => ⟨h, hsub' x h, hra x h⟩⟩
  · intro hrb
    rw [Equals_iff_keys (wf_Union _ _) hb.wf (regular_Union hra hrb) hrb]
    intro x
    rw [mem_keys_Union]
    exact ⟨fun h => h.elim (hsub' x) id, Or.inr⟩
  · rw [Equals_iff_keys (wf_RelCompl _ _) wf_NewSet (regular_RelCompl hra _) regular_NewSet]
    intro x
    rw [mem_keys_RelCompl, GoMap.index_eq_false_iff hb.wf.allTrue, keys_NewSet]
    exact ⟨fun h => absurd ⟨hsub' x h.1, hra x h.1⟩ h.2,
      fun h => absurd h (List.not_mem_nil x)⟩
  · rw [Equals_iff_keys (wf_Union _ _) ha.wf (regular_Union hra hra) hra]
    intro x
    rw [mem_keys_Union]
    exact ⟨fun h => h.elim id id, Or.inl⟩
  · rw [Equals_iff_keys (wf_Intersection _ _) ha.wf (regular_Intersection hra _) hra]
    intro x
    rw [mem_keys_Intersection, GoMap.index_eq_true_iff ha.wf.allTrue]
    exact ⟨fun h => h.1, fun h => ⟨h, h, hra x h⟩⟩

/-- The identities of a subset applied to `theSet` and `theOtherSet`, as `main`
tests them. -/
theorem subset_identities_witness :
    Built theSet ∧ Built theOtherSet ∧
    (∀ x, theSet.member x = true → theOtherSet.member x = true) ∧
    (Equals (theSet.Intersection theOtherSet) theSet = true ∧
    Equals (theSet.Union theOtherSet) theOtherSet = true ∧
    Equals (theSet.RelCompl theOtherSet) NewSet = true ∧
    Equals (theSet.Union theSet) theSet = true ∧
    Equals (theSet.Intersection theSet) theSet = true) :=
  have hsub : ∀ x, theSet.member x = true → theOtherSet.member x = true := by
    intro x hx
    have hx' : x ∈ [Value.int 1, Value.int 2, Value.int 3, Value.str "a", Value.str "b"] :=
      (mem_keys_ofSlice _ x).1
        ((member_iff_of_regular (wf_ofSlice _) (regular_Value _) x).1 hx)
    refine (member_iff_of_regular (wf_ofSlice _) (regular_Value _) x).2
      ((mem_keys_ofSlice _ x).2 ?_)
    simp only [List.mem_cons, List.mem_singleton, List.not_mem_nil, or_false] at hx'
    rcases hx' with rfl | rfl | rfl | rfl | rfl <;> simp
  have h := subset_identities (a := theSet) (b := theOtherSet) (Built.ofSlice _)
    (Built.ofSlice _) (regular_Value _) hsub
  ⟨Built.ofSlice _, Built.ofSlice _, hsub, h.1, h.2.1 (regular_Value _), h.2.2.1, h.2.2.2.1,
    h.2.2.2.2⟩

/-- C16, as stated, fails at `a = b = {NaN}`: no element is a member of `a`, and
`Equals(a.Union(a), a)`, `Equals(a.Intersection(a), a)` and
`Equals(a.RelCompl(a), NewSet())` are false. -/
theorem subset_identities_counterexample :
    Built nanSet ∧ (∀ x, nanSet.member x = true → nanSet.member x = true) ∧
    Equals (nanSet.Union nanSet) nanSet = false ∧
    Equals (nanSet.Intersection nanSet) nanSet = false ∧
    Equals (nanSet.RelCompl nanSet) NewSet = false :=
  ⟨built_nanSet, fun _ h => h, by decide, by decide, by decide⟩

/-- C20, as amended: the representation invariant.  In every set built from
`NewSet` by `Append`, `Remove`, `Union`, `Intersection`, `RelCompl` and
`PowerSet` every stored key has the value `true` and no key that is equal to
itself is stored twice; so for a key `k` that is equal to itself the lookup
`mem[k]` is `true` exactly when `k` is stored, and when every stored key is
equal to itself (no NaN) `len(mem)` is the number of members. -/
theorem representation_invariant {s : Set setMember} (hs : Built s) :
    (∀ e ∈ s.mem, e.2 = true) ∧
    (s.mem.keys.filter GoValue.selfEqual).Nodup ∧
    (∀ k, GoValue.selfEqual k = true → (s.mem.index k = true ↔ k ∈ s.mem.keys)) ∧
    (s.mem.Regular →
      s.mem.len = (s.mem.keys.toFinset.filter (fun k => s.member k = true)).card) := by
  have hwf := hs.wf
  refine ⟨hwf.allTrue, hwf.nodup, ?_, ?_⟩
  · intro k hk
    rw [GoMap.index_eq_true_iff hwf.allTrue]
    exact ⟨fun h => h.1, fun h => ⟨h, hk⟩⟩
  intro hr
  have hfil : s.mem.keys.toFinset.filter (fun k => s.member k = true) = s.mem.keys.toFinset := by
    apply Finset.filter_true_of_mem
    intro k hk
    exact (member_iff_of_regular hwf hr k).2 (List.mem_toFinset.1 hk)
  rw [hfil, List.toFinset_card_of_nodup (hwf.nodup_keys hr)]
  simp [GoMap.len, GoMap.keys]

/-- The representation invariant applied to the relative complement computed at
the end of `main`. -/
theorem representation_invariant_witness :
    Built (theSetD.RelCompl theOtherSet) ∧
    ((∀ e ∈ (theSetD.RelCompl theOtherSet).mem, e.2 = true) ∧
    (∀ k, GoValue.selfEqual k = true → ((theSetD.RelCompl theOtherSet).mem.index k = true ↔
      k ∈ (theSetD.RelCompl theOtherSet).mem.keys)) ∧
    (theSetD.RelCompl theOtherSet).mem.len =
      ((theSetD.RelCompl theOtherSet).mem.keys.toFinset.filter
        (fun k => (theSetD.RelCompl theOtherSet).member k = true)).card) :=
  have hb : Built (theSetD.RelCompl theOtherSet) :=
    Built.relCompl (Built.append _ (Built.ofSlice _)) (Built.ofSlice _)
  ⟨hb, (representation_invariant hb).1, (representation_invariant hb).2.2.1,
    (representation_invariant hb).2.2.2 (regular_Value _)⟩

/-- C20, as stated, fails at the set `{NaN}`: the key NaN is stored, with the
value `true`, and its lookup is `false`; `len(mem)` is 1 and no element is a
member. -/
theorem representation_invariant_counterexample :
    Built nanSet ∧ Dynamic.nan ∈ nanSet.mem.keys ∧ (∀ e ∈ nanSet.mem, e.2 = true) ∧
    nanSet.mem.index Dynamic.nan = false ∧ nanSet.mem.len = 1 ∧
    (nanSet.mem.keys.toFinset.filter (fun k => nanSet.member k = true)).card = 0 :=
  ⟨built_nanSet, by decide, by decide, by decide, by decide, by decide⟩

end Identities

/-! ## The self-test of the power set -/

section TestPowerSet

variable {setMember : Type} [DecidableEq setMember] [GoValue setMember]

theorem foldlM_range_getD {α β : Type} (f : β → α → Except String β) (d : α) (l : List α) :
    ∀ init : β,
    (List.range l.length).foldlM (fun acc i => f acc (l.getD i d)) init = l.foldlM f init := by
  induction l with
  | nil => intro init; rfl
  | cons a l ih =>
    intro init
    rw [List.length_cons, List.range_succ_eq_map, List.foldlM_cons, List.foldlM_cons]
    simp only [List.getD_cons_zero]
    cases f init a with
    | error e => rfl
    | ok b =>
      simp only [bind, Except.bind]
      rw [List.foldlM_map]
      simp only [List.getD_cons_succ]
      exact ih b

/-- The loop of `testPowerSet` over the keys of one entry: it stops with the
second panic at the first key whose lookup in `theSet` is `false`. -/
theorem collectLoop_eq (theSet : Set setMember) (l : List setMember) :
    ∀ c : Set setMember,
    l.foldlM
      (fun (collected : Set setMember) k =>
        if theSet.mem.index k == false then
          (Except.error "Error in allowed set members in PowerSet" :
            Except String (Set setMember))
        else Except.ok (collected.Append k)) c
      = if l.all (fun k => theSet.mem.index k) then Except.ok (l.foldl Set.Append c)
        else Except.error "Error in allowed set members in PowerSet" := by
  induction l with
  | nil => intro c; rfl
  | cons k l ih =>
    intro c
    rw [List.foldlM_cons]
    cases h : theSet.mem.index k with
    | false => simp [h, bind, Except.bind]
    | true =>
      simp only [h, beq_self_eq_true, Bool.true_eq_false, ↓reduceIte, bind, Except.bind,
        List.all_cons, Bool.true_and, List.foldl_cons, Bool.false_eq_true]
      exact ih _

theorem collectAll_eq (theSet : Set setMember) (L : List (Set setMember)) :
    ∀ c : Set setMember,
    L.foldlM
      (fun (collected : Set setMember) (e : Set setMember) =>
        e.mem.keys.foldlM
          (fun (collected : Set setMember) k =>
            if theSet.mem.index k == false then
              (Except.error "Error in allowed set members in PowerSet" :
                Except String (Set setMember))
            else Except.ok (collected.Append k)) collected) c
      = if L.all (fun e => e.mem.keys.all (fun k => theSet.mem.index k)) then
          Except.ok (L.foldl (fun all e => e.mem.keys.foldl Set.Append all) c)
        else Except.error "Error in allowed set members in PowerSet" := by
  induction L with
  | nil => intro c; rfl
  | cons e L ih =>
    intro c
    rw [List.foldlM_cons, collectLoop_eq]
    cases h : e.mem.keys.all (fun k => theSet.mem.index k) with
    | false => simp [h, bind, Except.bind]
    | true =>
      simp only [h, ↓reduceIte, bind, Except.bind, List.all_cons, Bool.true_and,
        List.foldl_cons]
      exact ih _

/-- The last loop of `testPowerSet` returns normally when every visited key has
the lookup `true` in `theSet`. -/
theorem missingLoop_ok (theSet : Set setMember) (l : List setMember)
    (h : ∀ k ∈ l, theSet.mem.index k = true) :
    l.foldlM
      (fun (_ : Unit) i =>
        if theSet.mem.index i == false then
          (Except.error "Error: elements missing in PowerSet" : Except String Unit)
        else Except.ok ()) () = Except.ok () := by
  induction l with
  | nil => rfl
  | cons k l ih =>
    rw [List.foldlM_cons]
    have hk : theSet.mem.index k = true := h k (List.mem_cons_self _ _)
    simp only [hk, bind, Except.bind]
    exact ih (fun k hk => h k (List.mem_cons_of_mem _ hk))

/-- What `testPowerSet` returns: the first panic when the length is not
`pow(2, len(theSet.mem))`, the second when an entry holds a key whose lookup in
`theSet` is `false`, and a normal return otherwise.  The third panic is never
reached: the last loop visits the collected keys, which the second check has
already looked up in `theSet`, and not the keys of `theSet`. -/
theorem testPowerSet_eq (subSetSlice : List (Set setMember)) (theSet : Set setMember) :
    testPowerSet subSetSlice theSet =
      if (subSetSlice.length : Int) ≠ pow 2 theSet.mem.len then
        Except.error "Error in number of elements in PowerSet"
      else if subSetSlice.all (fun e => e.mem.keys.all (fun k => theSet.mem.index k)) then
        Except.ok ()
      else Except.error "Error in allowed set members in PowerSet" := by
  unfold testPowerSet
  simp only []
  split_ifs with h1 h2
  · rfl
  · rw [foldlM_range_getD
      (fun (collected : Set setMember) (e : Set setMember) =>
        e.mem.keys.foldlM
          (fun (collected : Set setMember) k =>
            if theSet.mem.index k == false then
              (Except.error "Error in allowed set members in PowerSet" :
                Except String (Set setMember))
            else Except.ok (collected.Append k)) collected) NewSet subSetSlice NewSet,
      collectAll_eq, if_pos h2]
    simp only []
    apply missingLoop_ok
    intro k hk
    rw [← allElemsInPowSet_eq, mem_keys_allElemsInPowSet] at hk
    obtain ⟨e, he, hke⟩ := hk
    rw [List.all_eq_true] at h2
    exact List.all_eq_true.1 (h2 e he) k hke
  · rw [foldlM_range_getD
      (fun (collected : Set setMember) (e : Set setMember) =>
        e.mem.keys.foldlM
          (fun (collected : Set setMember) k =>
            if theSet.mem.index k == false then
              (Except.error "Error in allowed set members in PowerSet" :
                Except String (Set setMember))
            else Except.ok (collected.Append k)) collected) NewSet subSetSlice NewSet,
      collectAll_eq, if_neg h2]

end TestPowerSet

/-- C19, evaluated at `subSetSlice = [{}, {}]` and `theSet = {1}`: the element `1` of
`theSet` occurs in no entry, the length `2` is `pow(2, 1)`, and `testPowerSet`
returns normally instead of panicking. -/
theorem testPowerSet_misses_element :
    (ofSlice [Value.int 1]).member (Value.int 1) = true ∧
    (∀ e ∈ [(NewSet : Set Value), NewSet], e.member (Value.int 1) = false) ∧
    testPowerSet [(NewSet : Set Value), NewSet] (ofSlice [Value.int 1]) = Except.ok () := by
  refine ⟨by decide, by decide, ?_⟩
  rw [testPowerSet_eq]
  rfl

/-! ## The string of a set -/

section SetStringLemmas

variable {setMember : Type} [DecidableEq setMember] [GoValue setMember]

theorem SetString_eq (Sprint : setMember → GoString) (s : Set setMember) :
    s.SetString Sprint = [91] ++ List.intercalate [32] (s.mem.keys.map Sprint) ++ [93] := by
  unfold Set.SetString SprintSlice
  simp only [foldl_append_singleton, List.nil_append, List.map_id']

theorem countFold_eq (t : GoString) (S : GoString) : ∀ c : Nat,
    S.foldl (fun counter b => if t = stringOfByte b then counter + 1 else counter) c
      = c + S.countP (fun b => decide (t = stringOfByte b)) := by
  induction S with
  | nil => intro c; rfl
  | cons b S ih =>
    intro c
    rw [List.foldl_cons, ih]
    by_cases h : t = stringOfByte b
    · rw [if_pos h, List.countP_cons_of_pos _ _ (by simpa using h)]
      omega
    · rw [if_neg h, List.countP_cons_of_neg _ _ (by simpa using h)]

theorem sumFold_eq {α : Type} (g : α → Nat) (l : List α) : ∀ c : Nat,
    l.foldl (fun counter i => counter + g i) c = c + (l.map g).sum := by
  induction l with
  | nil => intro c; rfl
  | cons a l ih =>
    intro c
    rw [List.foldl_cons, ih, List.map_cons, List.sum_cons]
    omega

/-- The counter of `testSetString`: for each element the number of bytes of the
string whose conversion to a string is the rendering of the element. -/
theorem testSetStringCounter_eq (Sprint : setMember → GoString) (S : GoString)
    (s : Set setMember) :
    testSetStringCounter Sprint S s =
      (s.mem.keys.map (fun i => S.countP (fun b => decide (Sprint i = stringOfByte b)))).sum := by
  unfold testSetStringCounter
  have h : ∀ (counter : Nat) (i : setMember),
      (List.range S.length).foldl
        (fun counter k =>
          if Sprint i = stringOfByte (S.getD k 0) then counter + 1 else counter) counter
        = counter + S.countP (fun b => decide (Sprint i = stringOfByte b)) := by
    intro counter i
    rw [foldl_range_getD
      (fun counter b => if Sprint i = stringOfByte b then counter + 1 else counter) 0 S counter]
    exact countFold_eq (Sprint i) S counter
  simp only [h]
  rw [sumFold_eq]
  omega

theorem stringOfByte_eq_singleton {b c : Nat} (hc : c < 128) :
    [c] = stringOfByte b ↔ b = c := by
  unfold stringOfByte
  by_cases hb : b < 128
  · rw [if_pos hb]
    simp [eq_comm]
  · rw [if_neg hb]
    constructor
    · intro h
      simp at h
    · rintro rfl
      exact absurd hc hb

/-- A byte other than the space is found among one-byte renderings separated by
spaces as often as among the renderings. -/
theorem count_intercalate (Sprint : setMember → GoString) (ch : setMember → Nat) (a : Nat)
    (ha : a ≠ 32) : ∀ l : List setMember, (∀ x ∈ l, Sprint x = [ch x]) →
    (List.intercalate [32] (l.map Sprint)).count a = (l.map ch).count a := by
  intro l
  induction l with
  | nil => intro _; rfl
  | cons x l ih =>
    intro h
    have hx : Sprint x = [ch x] := h x (List.mem_cons_self _ _)
    have hl : ∀ y ∈ l, Sprint y = [ch y] := fun y hy => h y (List.mem_cons_of_mem _ hy)
    cases l with
    | nil => simp [List.intercalate, List.intersperse, hx]
    | cons y l =>
      have ih' := ih hl
      simp only [List.intercalate, List.map_cons, List.intersperse, List.flatten_cons,
        List.count_append, List.count_cons, List.count_nil] at ih' ⊢
      rw [hx]
      simp only [List.count_cons, List.count_nil]
      have h32 : ((32 : Nat) == a) = false := by
        simp [Ne.symm ha]
      simp only [h32, Bool.false_eq_true, if_false] at ih' ⊢
      omega

end SetStringLemmas

section SetStringClaim

variable {setMember : Type} [DecidableEq setMember] [GoValue setMember]

theorem sum_map_one {α : Type} (l : List α) : (l.map (fun _ => 1)).sum = l.length := by
  induction l with
  | nil => rfl
  | cons a l ih => rw [List.map_cons, List.sum_cons, ih, List.length_cons]; omega

/-- When the keys of `s` are stored once each and render (`fmt.Sprint`) as single
ASCII characters other than the space and the two brackets, different keys
rendering differently, the counter of `testSetString` ends at `len(s)` and
`testSetString` returns normally. -/
theorem testSetString_of_single_characters (Sprint : setMember → GoString)
    {s : Set setMember} (hnd : s.mem.keys.Nodup)
    (h1 : ∀ x ∈ s.mem.keys,
      (Sprint x).length = 1 ∧ ∀ c ∈ Sprint x, c < 128 ∧ c ≠ 32 ∧ c ≠ 91 ∧ c ≠ 93)
    (h2 : ∀ x ∈ s.mem.keys, ∀ y ∈ s.mem.keys, Sprint x = Sprint y → x = y) :
    testSetStringCounter Sprint (s.SetString Sprint) s = s.mem.len ∧
    testSetString Sprint (s.SetString Sprint) s = Except.ok () := by
  have hcount : testSetStringCounter Sprint (s.SetString Sprint) s = s.mem.len := by
    rw [testSetStringCounter_eq, SetString_eq]
    have hch : ∀ x ∈ s.mem.keys, Sprint x = [(Sprint x).headD 0] := by
      intro x hx
      have hlen := (h1 x hx).1
      match hS : Sprint x, hlen with
      | [c], _ => rfl
    have hone : ∀ i ∈ s.mem.keys,
        ([91] ++ List.intercalate [32] (s.mem.keys.map Sprint) ++ [93]).countP
          (fun b => decide (Sprint i = stringOfByte b)) = 1 := by
      intro i hi
      have hci := hch i hi
      have hprop := (h1 i hi).2 ((Sprint i).headD 0) (by rw [hci]; simp)
      have hcongr : ([91] ++ List.intercalate [32] (s.mem.keys.map Sprint) ++ [93]).countP
          (fun b => decide (Sprint i = stringOfByte b)) =
          ([91] ++ List.intercalate [32] (s.mem.keys.map Sprint) ++ [93]).count
            ((Sprint i).headD 0) := by
        rw [List.count]
        apply List.countP_congr
        intro b _
        rw [hci]
        simp only [decide_eq_true_eq, beq_iff_eq, List.headD_cons]
        exact stringOfByte_eq_singleton hprop.1
      rw [hcongr, List.count_append, List.count_append,
        count_intercalate Sprint (fun x => (Sprint x).headD 0) _ hprop.2.1 _ hch]
      have hnd' : (s.mem.keys.map (fun x => (Sprint x).headD 0)).Nodup := by
        apply List.Nodup.map_on _ hnd
        intro x hx y hy hxy
        apply h2 x hx y hy
        rw [hch x hx, hch y hy, hxy]
      have hmem : (Sprint i).headD 0 ∈ s.mem.keys.map (fun x => (Sprint x).headD 0) :=
        List.mem_map_of_mem _ hi
      rw [List.count_eq_one_of_mem hnd' hmem]
      have h91 : ((91 : Nat) == (Sprint i).headD 0) = false :=
        beq_eq_false_iff_ne.2 (Ne.symm hprop.2.2.1)
      have h93 : ((93 : Nat) == (Sprint i).headD 0) = false :=
        beq_eq_false_iff_ne.2 (Ne.symm hprop.2.2.2)
      simp only [List.count_cons, List.count_nil, h91, h93, Bool.false_eq_true, if_false]
    rw [List.map_congr_left hone, sum_map_one]
    simp [GoMap.len, GoMap.keys]
  refine ⟨hcount, ?_⟩
  unfold testSetString
  rw [if_neg (by simpa using hcount)]

/-- C17, evaluated at the set `{10}`: `SetString` returns `[10]`, in which the
rendering `10` of the one element appears once; `testSetString` compares that
rendering with the single characters of the string, so its counter ends at `0`
and not at `len(s) = 1`, and it panics. -/
theorem SetString_counter_ten :
    Built tenSet ∧ tenSet.SetString SprintValue = [91, 49, 48, 93] ∧
    SprintValue (Value.int 10) = [49, 48] ∧
    testSetStringCounter SprintValue (tenSet.SetString SprintValue) tenSet = 0 ∧
    tenSet.mem.len = 1 ∧
    testSetStringCounter SprintValue (tenSet.SetString SprintValue) tenSet ≠ tenSet.mem.len ∧
    testSetString SprintValue (tenSet.SetString SprintValue) tenSet =
      Except.error "Error in SetString: wrong number of elements" :=
  ⟨Built.ofSlice _, by decide, by decide, by decide, by decide, by decide, by rfl⟩

end SetStringClaim

/-! ## The entries of `subsets`, index by index -/

section SubsetsEntries

variable {setMember : Type} [DecidableEq setMember] [GoValue setMember]

theorem length_bitString (n : Nat) : ∀ i, (bitString n i).length = n := by
  induction n with
  | zero => intro i; rfl
  | succ n ih => intro i; rw [bitString, List.length_append, ih]; rfl

theorem binDigit_cases (u : Nat) : binDigit u = '0' ∨ binDigit u = '1' := by
  unfold binDigit
  split_ifs
  · exact Or.inr rfl
  · exact Or.inl rfl

theorem binDigit_eq_one_iff (u : Nat) : binDigit u = '1' ↔ u % 2 = 1 := by
  unfold binDigit
  split_ifs with h
  · simp [h]
  · simp [h]

theorem mem_bitString {n : Nat} : ∀ {i : Nat} {c : Char}, c ∈ bitString n i → c = '0' ∨ c = '1' := by
  induction n with
  | zero => intro i c h; cases h
  | succ n ih =>
    intro i c h
    rw [bitString, List.mem_append, List.mem_singleton] at h
    rcases h with h | rfl
    · exact ih h
    · exact binDigit_cases i

theorem binaryValue_append (l : List Char) (c : Char) :
    binaryValue (l ++ [c]) = 2 * binaryValue l + (if c = '1' then 1 else 0) := by
  simp [binaryValue, List.foldl_append]

theorem binaryValue_bitString (n : Nat) : ∀ i, binaryValue (bitString n i) = i % 2 ^ n := by
  induction n with
  | zero => intro i; simp [bitString, binaryValue, Nat.mod_one]
  | succ n ih =>
    intro i
    rw [bitString, binaryValue_append, ih, pow_succ', Nat.mod_mul]
    have hd : (if binDigit i = '1' then 1 else 0) = i % 2 := by
      by_cases h : i % 2 = 1
      · rw [if_pos ((binDigit_eq_one_iff i).2 h), h]
      · rw [if_neg (fun hb => h ((binDigit_eq_one_iff i).1 hb))]
        omega
    rw [hd]
    omega

/-- The elements picked by the low digits of `i` are those the specification
names. -/
theorem pick_bitString {α : Type} (xs : List α) :
    ∀ i, pick xs (bitString xs.length i) = subsequenceOfIndex xs i := by
  induction xs with
  | nil => intro i; rfl
  | cons x xs ih =>
    intro i
    have hrest : subsequenceOfIndex xs (i % 2 ^ xs.length) =
        (List.range xs.length).filterMap
          (fun k => if i.testBit (xs.length - 1 - k) then xs[k]? else none) := by
      unfold subsequenceOfIndex
      apply List.filterMap_congr
      intro k hk
      have hk' := List.mem_range.1 hk
      rw [Nat.testBit_mod_two_pow]
      have hlt : decide (xs.length - 1 - k < xs.length) = true := by
        rw [decide_eq_true_eq]
        omega
      rw [hlt, Bool.true_and]
    have hshift : (List.range xs.length).filterMap
          (fun k => if i.testBit (xs.length - 1 - k) then xs[k]? else none) =
        (List.range xs.length).filterMap
          ((fun k => if i.testBit (xs.length + 1 - 1 - k) then (x :: xs)[k]? else none) ∘
            Nat.succ) := by
      apply List.filterMap_congr
      intro k _
      have e : xs.length + 1 - 1 - (k + 1) = xs.length - 1 - k := by omega
      simp only [Function.comp, Nat.succ_eq_add_one, e, List.getElem?_cons_succ]
    rw [List.length_cons, bitString_succ, pick, ih, hrest, hshift]
    unfold subsequenceOfIndex
    rw [List.length_cons, List.range_succ_eq_map, List.filterMap_cons, List.filterMap_map]
    have e0 : xs.length + 1 - 1 - 0 = xs.length := by omega
    simp only [e0, List.getElem?_cons_zero]
    by_cases hb : i.testBit xs.length = true
    · have hd : binDigit (i / 2 ^ xs.length) = '1' := by
        rw [binDigit_eq_one_iff]
        rw [Nat.testBit_to_div_mod, decide_eq_true_eq] at hb
        exact hb
      rw [if_pos hd, hb]
      rfl
    · have hd : ¬ binDigit (i / 2 ^ xs.length) = '1' := by
        rw [binDigit_eq_one_iff]
        rw [Nat.testBit_to_div_mod, decide_eq_true_eq] at hb
        exact hb
      rw [if_neg hd]
      rw [Bool.not_eq_true] at hb
      rw [hb]
      rfl

theorem indexSlice_eq_map (xs : List setMember) :
    indexSlice xs = (List.range (pow 2 xs.length).toNat).map (Sprintf_binaryLen xs.length) := by
  unfold indexSlice
  rw [foldl_append_singleton, List.nil_append]

/-- The index string of `i`, when `i < 2 ^ n`: `n` binary digits (one digit for
`n = 0`) that denote `i`. -/
theorem Sprintf_binaryLen_spec {n i : Nat} (hi : i < 2 ^ n) :
    (Sprintf_binaryLen n i).length = max n 1 ∧
    (∀ c ∈ Sprintf_binaryLen n i, c = '0' ∨ c = '1') ∧
    binaryValue (Sprintf_binaryLen n i) = i := by
  rcases Nat.eq_zero_or_pos n with h0 | hpos
  · subst h0
    have hi0 : i = 0 := by simpa using hi
    subst hi0
    refine ⟨rfl, ?_, rfl⟩
    intro c hc
    have hc' : c ∈ ['0'] := hc
    exact Or.inl (List.mem_singleton.1 hc')
  · rw [Sprintf_binaryLen_eq hpos hi]
    refine ⟨?_, fun c hc => mem_bitString hc, ?_⟩
    · rw [length_bitString]
      omega
    · rw [binaryValue_bitString, Nat.mod_eq_of_lt hi]

theorem subsets_eq_pick {xs : List setMember} (h : xs.length ≤ 62) :
    subsets xs = (List.range (2 ^ xs.length)).map (fun i => pick xs (bitString xs.length i)) := by
  rw [subsets_of_le h, map_pick_bitString]

end SubsetsEntries

section SubsetsClaim

variable {setMember : Type} [DecidableEq setMember] [GoValue setMember]

theorem subsequenceOfIndex_zero {α : Type} (xs : List α) : subsequenceOfIndex xs 0 = [] := by
  unfold subsequenceOfIndex
  simp

theorem bitString_ones (n : Nat) : bitString n (2 ^ n - 1) = List.replicate n '1' := by
  induction n with
  | zero => rfl
  | succ n ih =>
    have hpos : 0 < 2 ^ n := by positivity
    have e : 2 ^ (n + 1) - 1 = 2 ^ n + (2 ^ n - 1) := by
      rw [pow_succ]
      omega
    rw [e, bitString_add (by omega), ih, List.replicate_succ]

theorem pick_ones {α : Type} (xs : List α) : pick xs (List.replicate xs.length '1') = xs := by
  induction xs with
  | nil => rfl
  | cons x xs ih => rw [List.length_cons, List.replicate_succ, pick, if_pos rfl, ih]

/-- C18, as amended: for a slice `xs` of length `n ≤ 62`, `subsets(xs)` has `2 ^ n`
entries and builds `2 ^ n` index strings; the index string of `i` consists of
`n` binary digits, one digit when `n = 0`, and denotes `i`; entry `i` is the
subsequence of those `xs[k]`, in order, for which digit `k` of the `n`-digit
binary representation of `i` is 1; entry `0` is empty and entry `2 ^ n - 1` is
`xs`. -/
theorem subsets_entries (xs : List setMember) (h : xs.length ≤ 62) :
    (subsets xs).length = 2 ^ xs.length ∧
    (indexSlice xs).length = 2 ^ xs.length ∧
    (∀ i, i < 2 ^ xs.length →
      ((indexSlice xs).getD i []).length = max xs.length 1 ∧
      (∀ c ∈ (indexSlice xs).getD i [], c = '0' ∨ c = '1') ∧
      binaryValue ((indexSlice xs).getD i []) = i ∧
      (subsets xs).getD i [] = subsequenceOfIndex xs i) ∧
    (subsets xs).getD 0 [] = [] ∧
    (subsets xs).getD (2 ^ xs.length - 1) [] = xs := by
  have hpos : 0 < 2 ^ xs.length := by positivity
  have hidx : indexSlice xs = (List.range (2 ^ xs.length)).map (Sprintf_binaryLen xs.length) := by
    rw [indexSlice_eq_map, pow_two_toNat, if_pos h]
  have hentry : ∀ i, i < 2 ^ xs.length → (subsets xs).getD i [] = subsequenceOfIndex xs i := by
    intro i hi
    rw [subsets_eq_pick h, getD_map_range _ _ _ _ hi, pick_bitString]
  refine ⟨?_, ?_, ?_, ?_, ?_⟩
  · rw [subsets_of_le h, List.length_sublists']
  · rw [hidx, List.length_map, List.length_range]
  · intro i hi
    rw [hidx, getD_map_range _ _ _ _ hi]
    obtain ⟨h1, h2, h3⟩ := Sprintf_binaryLen_spec hi
    exact ⟨h1, h2, h3, hentry i hi⟩
  · rw [hentry 0 hpos, subsequenceOfIndex_zero]
  · rw [subsets_eq_pick h, getD_map_range _ _ _ _ (by omega), bitString_ones, pick_ones]

/-- The statement on `subsets` applied to the slice `1, "a", 2` and the index `5`. -/
theorem subsets_entries_witness :
    [Value.int 1, Value.str "a", Value.int 2].length ≤ 62 ∧
    (subsets [Value.int 1, Value.str "a", Value.int 2]).length = 2 ^ 3 ∧
    binaryValue ((indexSlice [Value.int 1, Value.str "a", Value.int 2]).getD 5 []) = 5 ∧
    (subsets [Value.int 1, Value.str "a", Value.int 2]).getD 5 [] =
      subsequenceOfIndex [Value.int 1, Value.str "a", Value.int 2] 5 :=
  ⟨by decide,
    (subsets_entries [Value.int 1, Value.str "a", Value.int 2] (by decide)).1,
    ((subsets_entries [Value.int 1, Value.str "a", Value.int 2] (by decide)).2.2.1 5
      (by decide)).2.2.1,
    ((subsets_entries [Value.int 1, Value.str "a", Value.int 2] (by decide)).2.2.1 5
      (by decide)).2.2.2⟩

/-- C18, as stated, fails at the empty slice, whose one index string `0` has one
digit and not zero digits, and at a slice of 63 elements, for which `subsets`
has no entry. -/
theorem subsets_entries_counterexample :
    indexSlice ([] : List Value) = [['0']] ∧
    ((indexSlice ([] : List Value)).getD 0 []).length ≠ ([] : List Value).length ∧
    ((List.range 63).map (fun i : Nat => Value.int i)).length = 63 ∧
    (subsets ((List.range 63).map (fun i : Nat => Value.int i))).length = 0 ∧
    (subsets ((List.range 63).map (fun i : Nat => Value.int i))).length ≠ 2 ^ 63 := by
  have h63 : ((List.range 63).map (fun i : Nat => Value.int i)).length = 63 := by simp
  have hsub : subsets ((List.range 63).map (fun i : Nat => Value.int i)) = [] :=
    subsets_of_gt (by rw [h63]; decide)
  refine ⟨by decide, by decide, h63, ?_, ?_⟩
  · rw [hsub]
    rfl
  · rw [hsub]
    decide

end SubsetsClaim

/-- The call `testSetString(theSet.SetString(), theSet)` of `main`, on the set
`{1, 2, 3, "a", "b", "d"}`, returns normally. -/
theorem testSetString_theSetD :
    testSetStringCounter SprintValue (theSetD.SetString SprintValue) theSetD = theSetD.mem.len ∧
    testSetString SprintValue (theSetD.SetString SprintValue) theSetD = Except.ok () :=
  ⟨by decide, by rfl⟩

end GoSet
